import Mathlib

/-!
Verification development for the IDML markup-safe text-substitution engine
(`js/idml-processor.js`).  Strings are modelled as `List Char`; every function
is a direct shallow embedding of the corresponding JavaScript routine.
-/

namespace Idml

set_option maxHeartbeats 4000000
set_option maxRecDepth 10000

/-- Character class of the source's whitespace regex `[\s ]` (the
JavaScript `\s` class together with the no-break space, which `\s` already
contains; the additional Unicode space code points of `\s` are listed
explicitly). -/
def isSpaceChar (c : Char) : Bool :=
  c = ' ' || c = '\t' || c = '\n' || c = '\r' || c.val = 11 || c.val = 12 ||
  c.val = 0xA0 || c.val = 0x1680 || (0x2000 ≤ c.val && c.val ≤ 0x200A) ||
  c.val = 0x2028 || c.val = 0x2029 || c.val = 0x202F || c.val = 0x205F ||
  c.val = 0x3000 || c.val = 0xFEFF

/-- Character class of the source's word-character regex `[A-Za-z0-9_]`
used by the whole-word boundary checks. -/
def isWordChar (c : Char) : Bool :=
  ('A' ≤ c && c ≤ 'Z') || ('a' ≤ c && c ≤ 'z') || ('0' ≤ c && c ≤ '9') || c = '_'

/-- The apostrophe character, written via its code point. -/
def apos : Char := Char.ofNat 39

/-- Entity-decode layer of `unescapeWithMap` in `_normalizedReplace`:
scans the fragment, tests in source order for the five predefined XML
entities (`startsWith` in the source), decodes each hit, and records for
every decoded character the index of the start of its source sequence.
`i` is the index of the head of `l` in the enclosing fragment. -/
def unescAux : List Char → Nat → List (Char × Nat)
  | '&' :: 'a' :: 'm' :: 'p' :: ';' :: rest, i => ('&', i) :: unescAux rest (i + 5)
  | '&' :: 'l' :: 't' :: ';' :: rest, i => ('<', i) :: unescAux rest (i + 4)
  | '&' :: 'g' :: 't' :: ';' :: rest, i => ('>', i) :: unescAux rest (i + 4)
  | '&' :: 'q' :: 'u' :: 'o' :: 't' :: ';' :: rest, i => ('"', i) :: unescAux rest (i + 6)
  | '&' :: 'a' :: 'p' :: 'o' :: 's' :: ';' :: rest, i => (apos, i) :: unescAux rest (i + 6)
  | c :: rest, i => (c, i) :: unescAux rest (i + 1)
  | [], _ => []

/-- Decoded text of the entity layer (`unescaped` in the source). -/
def unescape (l : List Char) : List Char := (unescAux l 0).map Prod.fst

/-- Whitespace-collapse layer of `buildNormalized` in `_normalizedReplace`:
a maximal run of whitespace becomes a single space whose recorded index is
the start of the run.  The source's inner `while` skip over the run is
expressed with the `inRun` flag: a whitespace character emits the collapsed
space only when the previous character was not part of the same run. -/
def normAux (l : List Char) (i : Nat) (inRun : Bool) : List (Char × Nat) :=
  match l with
  | [] => []
  | c :: rest =>
    if isSpaceChar c then
      if inRun then normAux rest (i + 1) true
      else (' ', i) :: normAux rest (i + 1) true
    else (c, i) :: normAux rest (i + 1) false

/-- Generic whitespace-collapse over characters paired with arbitrary map
data, mirroring the normalisation loop of `_replaceAcrossContentBlocks`
(the collapsed space carries the map entry of the start of the run). -/
def collapseAux {α : Type} (l : List (Char × α)) (inRun : Bool) : List (Char × α) :=
  match l with
  | [] => []
  | (c, a) :: rest =>
    if isSpaceChar c then
      if inRun then collapseAux rest true
      else (' ', a) :: collapseAux rest true
    else (c, a) :: collapseAux rest false

/-- JavaScript `String.prototype.indexOf(pat, start)` on the model: the least
index `j ≥ start` at which `pat` occurs in `s`, or `none`. -/
def indexOfFrom (s pat : List Char) (start : Nat) : Option Nat :=
  (List.range (s.length + 1)).find? (fun j => start ≤ j && pat.isPrefixOf (s.drop j))

theorem indexOfFrom_bounds {s pat : List Char} {start f : Nat}
    (h : indexOfFrom s pat start = some f) :
    start ≤ f ∧ f + pat.length ≤ s.length := by
  have hmem := List.mem_of_find?_eq_some h
  have hp := List.find?_some h
  simp only [Bool.and_eq_true, decide_eq_true_eq] at hp
  have hpre : pat <+: s.drop f := by
    simpa [List.isPrefixOf_iff_prefix] using hp.2
  have hlen := hpre.length_le
  simp only [List.length_drop] at hlen
  have hf : f < s.length + 1 := by simpa using List.mem_range.mp hmem
  exact ⟨hp.1, by omega⟩

/-- A match span in normalized coordinates; `stop` is the exclusive end
(the source calls it `end`). -/
structure Span where
  start : Nat
  stop : Nat
  deriving DecidableEq, Repr

/-- Whole-word boundary test of the manual search loops: the characters
immediately before and after the candidate must not be word characters
(or the candidate touches the haystack boundary). -/
def boundaryOk (s pat : List Char) (f : Nat) : Bool :=
  (decide (f = 0) || !isWordChar (s.getD (f - 1) ' ')) &&
  (decide (s.length ≤ f + pat.length) || !isWordChar (s.getD (f + pat.length) ' '))

/-- Plain (non whole-word) search loop of `_normalizedReplace` and of
`_replaceAcrossContentBlocks`: repeated `indexOf`, each subsequent search
resuming at the end of the previous match; `firstOnly` stops after the
first span.  The source loop never terminates on an empty search term, so
the model returns no spans there (callers reject empty terms upstream). -/
def searchAllAux : Nat → List Char → List Char → Bool → Nat → List Span
  | 0, _, _, _, _ => []
  | fuel + 1, s, pat, firstOnly, idx =>
    if pat = [] then []
    else
      match indexOfFrom s pat idx with
      | none => []
      | some f =>
        if firstOnly then [⟨f, f + pat.length⟩]
        else ⟨f, f + pat.length⟩ :: searchAllAux fuel s pat firstOnly (f + pat.length)

/-- Whole-word search loop of `_normalizedReplace` and of
`_replaceAcrossContentBlocks`: boundary-checked candidates, the search
resuming one position past each candidate start ("allow overlapping
checks" in the source). -/
def searchWWAux : Nat → List Char → List Char → Bool → Nat → List Span
  | 0, _, _, _, _ => []
  | fuel + 1, s, pat, firstOnly, idx =>
    if pat = [] then []
    else
      match indexOfFrom s pat idx with
      | none => []
      | some f =>
        if boundaryOk s pat f then
          if firstOnly then [⟨f, f + pat.length⟩]
          else ⟨f, f + pat.length⟩ :: searchWWAux fuel s pat firstOnly (f + 1)
        else searchWWAux fuel s pat firstOnly (f + 1)

/-- The matcher: dispatches on the whole-word flag exactly as the two
search branches of the source do; `s` and `pat` are the case-adjusted
normalized haystack and query.  The fuel `s.length + 1` always covers the
source loop: the search position strictly increases and never exceeds the
haystack length. -/
def findMatches (s pat : List Char) (wholeWords firstOnly : Bool) : List Span :=
  if wholeWords then searchWWAux (s.length + 1) s pat firstOnly 0
  else searchAllAux (s.length + 1) s pat firstOnly 0

/-- Lower-casing used by the case-insensitive mode.  The model uses the
ASCII `Char.toLower` per character, which is length-preserving; the
source's `toLowerCase` is full Unicode and can change the string length
(for example at U+0130), a divergence the model does not capture and
which is immaterial to ASCII text. -/
def toLowerList (l : List Char) : List Char := l.map Char.toLower

/-- Query whitespace collapse, `findText.replace(/[\s ]+/g, s)` with a
single space: every maximal whitespace run becomes one space. -/
def collapseQuery (l : List Char) : List Char := (normAux l 0 false).map Prod.fst

/-- JavaScript `trim` on a collapsed query: after collapsing, the only
whitespace characters left are plain spaces, so trimming removes a single
leading and trailing space. -/
def trimSpaces (l : List Char) : List Char :=
  ((l.dropWhile (fun c => c = ' ')).reverse.dropWhile (fun c => c = ' ')).reverse

/-- The normalized search term `normFind` of both substitutors. -/
def normalizeQuery (find : List Char) : List Char := trimSpaces (collapseQuery find)

/-- Result of a single-block substitution (`newText`, `replacementCount`);
the debug match list of the source is not modelled. -/
structure NRResult where
  newText : List Char
  replacementCount : Nat
  deriving DecidableEq, Repr

/-- Span resolution of `_normalizedReplace`: a normalized span is mapped
through `mapNormToUnesc` and then `mapUnesc` back to original-fragment
offsets, with the end-of-string boundary cases of the source. -/
def resolveSpan (mapNorm mapUnesc : List Nat) (unescLen origLen : Nat) (m : Span) :
    Nat × Nat :=
  let uS := mapNorm.getD m.start 0
  let uE := if m.stop < mapNorm.length then mapNorm.getD m.stop 0 else unescLen
  let oS := mapUnesc.getD uS 0
  let oE := if uE < mapUnesc.length then mapUnesc.getD uE 0 else origLen
  (oS, oE)

/-- One splice step `newText.slice(0, origStart) + replaceText +
newText.slice(origEnd)`. -/
def spliceAt (text rep : List Char) (oS oE : Nat) : List Char :=
  text.take oS ++ rep ++ text.drop oE

/-- Pairs `(decoded char, original index)` of the entity layer of
`_normalizedReplace` for a fragment. -/
def unescPairs (t : List Char) : List (Char × Nat) := unescAux t 0

/-- The index map `mapUnesc` of the entity layer. -/
def unescMap (t : List Char) : List Nat := (unescPairs t).map Prod.snd

/-- Pairs `(normalized char, unescaped index)` of the whitespace layer of
`_normalizedReplace` for a fragment. -/
def normPairsOf (t : List Char) : List (Char × Nat) := normAux (unescape t) 0 false

/-- The normalized text `normUnesc` of a fragment. -/
def normTextOf (t : List Char) : List Char := (normPairsOf t).map Prod.fst

/-- The index map `mapNormToUnesc` of the whitespace layer. -/
def normMapOf (t : List Char) : List Nat := (normPairsOf t).map Prod.snd

/-- The case-adjusted search haystack of `_normalizedReplace`. -/
def searchHaystack (t : List Char) (caseSensitive : Bool) : List Char :=
  if caseSensitive then normTextOf t else toLowerList (normTextOf t)

/-- The case-adjusted search term of `_normalizedReplace`. -/
def searchNeedle (find : List Char) (caseSensitive : Bool) : List Char :=
  if caseSensitive then normalizeQuery find else toLowerList (normalizeQuery find)

/-- The match list found by `_normalizedReplace` for a fragment. -/
def nrMatches (t find : List Char) (caseSensitive wholeWords firstOnly : Bool) :
    List Span :=
  findMatches (searchHaystack t caseSensitive) (searchNeedle find caseSensitive)
    wholeWords firstOnly

/-- The matches of `_normalizedReplace` resolved to original-fragment
offsets through the two index maps. -/
def nrResolved (t find : List Char) (caseSensitive wholeWords firstOnly : Bool) :
    List (Nat × Nat) :=
  (nrMatches t find caseSensitive wholeWords firstOnly).map
    (resolveSpan (normMapOf t) (unescMap t) (unescape t).length t.length)

/-- The `_normalizedReplace` helper: entity-decode and whitespace-collapse
the fragment, search the case-adjusted normalized text, then apply the
replacement to each match from the last to the first, resolving spans
through the two index maps.  The replacement text is inserted verbatim. -/
def normalizedReplace (originalText find rep : List Char)
    (caseSensitive wholeWords firstOnly : Bool) : NRResult :=
  let ms := nrMatches originalText find caseSensitive wholeWords firstOnly
  if ms.isEmpty then ⟨originalText, 0⟩
  else
    let resolved := nrResolved originalText find caseSensitive wholeWords firstOnly
    ⟨List.foldr (fun p acc => spliceAt acc rep p.1 p.2) originalText resolved,
      ms.length⟩

/-- `replaceTextContent`: all-occurrences single-block substitution. -/
def replaceTextContent (text find rep : List Char) (caseSensitive wholeWords : Bool) :
    NRResult :=
  normalizedReplace text find rep caseSensitive wholeWords false

/-- `replaceTextContentOnce`: first-occurrence single-block substitution. -/
def replaceTextContentOnce (text find rep : List Char) (caseSensitive wholeWords : Bool) :
    NRResult :=
  normalizedReplace text find rep caseSensitive wholeWords true

/-- Opening literal of the `Content` element regex `<Content[^>]*>`. -/
def contentOpenTok : List Char := "<Content".toList

/-- Closing literal `</Content>` of the `Content` element regex. -/
def contentCloseTok : List Char := "</Content>".toList

/-- Opening literal of the `CharacterStyleRange` element regex. -/
def csrOpenTok : List Char := "<CharacterStyleRange".toList

/-- Closing literal of the `CharacterStyleRange` element regex. -/
def csrCloseTok : List Char := "</CharacterStyleRange>".toList

/-- One element matched by a regex of the shape `<Tag[^>]*>(.*?)</Tag>`
with the `g` and `s` flags: offsets of the full match and of the lazy
inner capture. -/
structure Elem where
  fullStart : Nat
  fullEnd : Nat
  innerStart : Nat
  innerEnd : Nat
  deriving DecidableEq, Repr

/-- Repeated-`exec` scan of `<openTok[^>]*>(.*?)closeTok` from position
`q`: the next match starts at the next occurrence of the opening literal,
its tag ends at the first `>` after it, the lazy inner capture ends at
the first occurrence of the closing literal, and the scan resumes at the
end of the full match.  When the tag `>` or the closing literal is
missing, no later occurrence of the opening literal can complete a match
either, so the scan ends, matching the regex semantics. -/
def scanElemsAux : Nat → List Char → List Char → List Char → Nat → List Elem
  | 0, _, _, _, _ => []
  | fuel + 1, xml, openTok, closeTok, q =>
    match indexOfFrom xml openTok q with
    | none => []
    | some m =>
      match indexOfFrom xml ['>'] (m + openTok.length) with
      | none => []
      | some g =>
        match indexOfFrom xml closeTok (g + 1) with
        | none => []
        | some e =>
          ⟨m, e + closeTok.length, g + 1, e⟩ ::
            scanElemsAux fuel xml openTok closeTok (e + closeTok.length)

/-- All element matches of a tag pair in a fragment (the scan position
strictly increases, so `xml.length + 1` fuel always covers the loop). -/
def scanElems (xml openTok closeTok : List Char) : List Elem :=
  scanElemsAux (xml.length + 1) xml openTok closeTok 0

/-- Inner capture text of an element. -/
def elemInner (xml : List Char) (el : Elem) : List Char :=
  (xml.drop el.innerStart).take (el.innerEnd - el.innerStart)

/-- Full matched text of an element. -/
def elemFull (xml : List Char) (el : Elem) : List Char :=
  (xml.drop el.fullStart).take (el.fullEnd - el.fullStart)

/-- Combined decoded text of `_replaceAcrossContentBlocks`: each block's inner
text is entity-decoded, its characters mapped to `(blockIndex, innerIndex)`
pairs, and a synthetic separator space carrying no map entry is appended
after every block. -/
def combinedOf (xml : List Char) (els : List Elem) : List (Char × Option (Nat × Nat)) :=
  (els.enum.map (fun p =>
    ((unescAux (elemInner xml p.2) 0).map (fun q => (q.1, some (p.1, q.2)))) ++
      [(' ', (none : Option (Nat × Nat)))])).flatten

/-- JavaScript `String.prototype.replace` with a global literal-equivalent
regex: every non-overlapping leftmost occurrence of `pat` is replaced by
`rep`; replaced text is not rescanned. -/
def replaceAllSubAux : Nat → List Char → List Char → List Char → List Char
  | 0, s, _, _ => s
  | fuel + 1, s, pat, rep =>
    if pat = [] then s
    else
      match indexOfFrom s pat 0 with
      | none => s
      | some f => s.take f ++ rep ++ replaceAllSubAux fuel (s.drop (f + pat.length)) pat rep

/-- Wrapper supplying fuel: each replacement strictly shortens the
remaining suffix, so `s.length + 1` steps always cover the scan. -/
def replaceAllSub (s pat rep : List Char) : List Char :=
  replaceAllSubAux (s.length + 1) s pat rep

/-- JavaScript `String.prototype.replace` with a plain string pattern:
replaces only the first occurrence (and, like the source, inserts at the
front when the pattern is empty). -/
def replaceFirstSub (s pat rep : List Char) : List Char :=
  match indexOfFrom s pat 0 with
  | none => s
  | some f => s.take f ++ rep ++ s.drop (f + pat.length)

/-- The `_escapeForXML` helper: five sequential global replacements, the
ampersand first. -/
def escapeForXML (t : List Char) : List Char :=
  replaceAllSub
    (replaceAllSub
      (replaceAllSub
        (replaceAllSub
          (replaceAllSub t ['&'] ['&', 'a', 'm', 'p', ';'])
          ['<'] ['&', 'l', 't', ';'])
        ['>'] ['&', 'g', 't', ';'])
      ['"'] ['&', 'q', 'u', 'o', 't', ';'])
    [apos] ['&', 'a', 'p', 'o', 's', ';']

/-- The `_unescapeForXML` helper: five sequential global replacements in
source order (`&amp;` first, so doubly-escaped sequences decode twice). -/
def unescapeForXML (t : List Char) : List Char :=
  replaceAllSub
    (replaceAllSub
      (replaceAllSub
        (replaceAllSub
          (replaceAllSub t ['&', 'a', 'm', 'p', ';'] ['&'])
          ['&', 'l', 't', ';'] ['<'])
        ['&', 'g', 't', ';'] ['>'])
      ['&', 'q', 'u', 'o', 't', ';'] ['"'])
    ['&', 'a', 'p', 'o', 's', ';'] [apos]

/-- All positions at or after `q` where the closing literal `</Content>`
occurs: the candidate end positions the lazy `[\s\S]*?` of the safety-gate
regex can stop at when the engine backtracks. -/
def closeSplits : Nat → List Char → Nat → List Nat
  | 0, _, _ => []
  | fuel + 1, s, q =>
    match indexOfFrom s contentCloseTok q with
    | none => []
    | some e => e :: closeSplits fuel s (e + 1)

/-- All remainders after matching one segment
`\s*<Content[^>]*>[\s\S]*?</Content>\s*` of the safety-gate regex at the
front of `s`: leading whitespace is consumed, the opening literal and the
first `>` after it are mandatory, and every later occurrence of the
closing literal is a possible segment end for the backtracking engine. -/
def segTails (s : List Char) : List (List Char) :=
  let s1 := s.dropWhile (fun c => isSpaceChar c)
  if contentOpenTok.isPrefixOf s1 then
    match indexOfFrom s1 ['>'] contentOpenTok.length with
    | none => []
    | some g =>
      (closeSplits (s1.length + 1) (s1.drop (g + 1)) 0).map
        (fun e => (((s1.drop (g + 1)).drop (e + contentCloseTok.length)).dropWhile
          (fun c => isSpaceChar c)))
  else []

/-- Backtracking decision of the safety-gate regex
`^(?:\s*<Content[^>]*>[\s\S]*?</Content>\s*)+$` of
`_replaceAcrossContentBlocks`: the string matches when it decomposes into
one or more complete segments.  The fuel bounds the number of segments;
every segment consumes at least the two tag literals, so `s.length + 1`
steps are always enough. -/
def onlyContentsAux : Nat → List Char → Bool
  | 0, _ => false
  | fuel + 1, s => (segTails s).any (fun t => t.isEmpty || onlyContentsAux fuel t)

/-- The safety-gate test `onlyContentsRe.test(between)`. -/
def onlyContentsTest (s : List Char) : Bool :=
  onlyContentsAux (s.length + 1) s

/-- Number of matches of `/<Content[^>]*>/g` in a region (the open-tag
count of the local tag-balance check). -/
def countOpensAux : Nat → List Char → Nat → Nat
  | 0, _, _ => 0
  | fuel + 1, s, q =>
    match indexOfFrom s contentOpenTok q with
    | none => 0
    | some m =>
      match indexOfFrom s ['>'] (m + contentOpenTok.length) with
      | none => 0
      | some g => 1 + countOpensAux fuel s (g + 1)

/-- Number of matches of `/<Content[^>]*>/g` in a region. -/
def countOpens (s : List Char) : Nat := countOpensAux (s.length + 1) s 0

/-- Number of matches of the closing literal `</Content>` in a region (the
close-tag count of the local tag-balance check). -/
def countClosesAux : Nat → List Char → Nat → Nat
  | 0, _, _ => 0
  | fuel + 1, s, q =>
    match indexOfFrom s contentCloseTok q with
    | none => 0
    | some e => 1 + countClosesAux fuel s (e + contentCloseTok.length)

/-- Number of matches of `/<\/Content>/g` in a region. -/
def countCloses (s : List Char) : Nat := countClosesAux (s.length + 1) s 0

/-- Fallback element value for indexing `blocks[...]` (indexing is always
in bounds in the source). -/
def dummyElem : Elem := ⟨0, 0, 0, 0⟩

/-- One iteration of the match loop of `_replaceAcrossContentBlocks`
(state: current fragment and applied count).  Resolves the match to block
coordinates, applies the boundary checks, the safety-gate regex and the
local tag-balance check, and either splices a single consolidated
`<Content>` element over the whole block span or leaves the state
untouched (the source's `continue`). -/
def crossStep (xmlOrig : List Char) (els : List Elem)
    (normMap : List (Option (Nat × Nat))) (rep : List Char)
    (st : List Char × Nat) (m : Span) : List Char × Nat :=
  match normMap.getD m.start none, normMap.getD (m.stop - 1) none with
  | some (sb, sInner), some (eb, eInnerPred) =>
    let endInner := eInnerPred + 1
    let elS := els.getD sb dummyElem
    let elE := els.getD eb dummyElem
    let innerS := elemInner xmlOrig elS
    let innerE := elemInner xmlOrig elE
    if sb ≠ eb && (decide (innerS.length < sInner) || decide (innerE.length < endInner)) then st
    else
      let between := (xmlOrig.drop elS.fullStart).take (elE.fullEnd - elS.fullStart)
      if !onlyContentsTest between then st
      else
        let preUnesc := unescapeForXML (innerS.take sInner)
        let postUnesc := unescapeForXML (innerE.drop endInner)
        let newStartInner := preUnesc ++ rep ++ postUnesc
        let before := st.1.take elS.fullStart
        let after := st.1.drop elE.fullEnd
        let middle := "<Content>".toList ++ escapeForXML newStartInner ++ contentCloseTok
        let candidate := before ++ middle ++ after
        let lo := elS.fullStart - 100
        let hi := min candidate.length (elE.fullEnd + 100)
        let region := (candidate.drop lo).take (hi - lo)
        if countOpens region ≠ countCloses region then st
        else (candidate, st.2 + 1)
  | _, _ => st

/-- The match loop of `_replaceAcrossContentBlocks`: matches are processed
from the last to the first, and in first-only mode the loop breaks as soon
as one match has been applied. -/
def crossLoop (xmlOrig : List Char) (els : List Elem)
    (normMap : List (Option (Nat × Nat))) (rep : List Char) (firstOnly : Bool) :
    List Span → List Char × Nat → List Char × Nat
  | [], st => st
  | m :: rest, st =>
    let st2 := crossStep xmlOrig els normMap rep st m
    if firstOnly && decide (st.2 < st2.2) then st2
    else crossLoop xmlOrig els normMap rep firstOnly rest st2

/-- Result of the cross-block substitutor. -/
structure CrossResult where
  newXml : List Char
  count : Nat
  deriving DecidableEq, Repr

/-- The `<Content>` element list of `_replaceAcrossContentBlocks` for a
fragment. -/
def crossEls (xml : List Char) : List Elem :=
  scanElems xml contentOpenTok contentCloseTok

/-- The collapsed combined pairs (normalized character, map entry) of
`_replaceAcrossContentBlocks`. -/
def crossNormPairs (xml : List Char) : List (Char × Option (Nat × Nat)) :=
  collapseAux (combinedOf xml (crossEls xml)) false

/-- The normalized combined text of `_replaceAcrossContentBlocks`. -/
def crossNormText (xml : List Char) : List Char :=
  (crossNormPairs xml).map Prod.fst

/-- The normalized combined index map of `_replaceAcrossContentBlocks`. -/
def crossNormMap (xml : List Char) : List (Option (Nat × Nat)) :=
  (crossNormPairs xml).map Prod.snd

/-- The match list of `_replaceAcrossContentBlocks` on the case-adjusted
combined text. -/
def crossMatches (xml find : List Char) (caseSensitive wholeWords firstOnly : Bool) :
    List Span :=
  findMatches
    (if caseSensitive then crossNormText xml else toLowerList (crossNormText xml))
    (if caseSensitive then normalizeQuery find else toLowerList (normalizeQuery find))
    wholeWords firstOnly

/-- The `_replaceAcrossContentBlocks` fallback: scans all `<Content>`
elements, concatenates their decoded inner texts with synthetic space
separators, collapses whitespace, searches the case-adjusted combination,
and applies the matches from last to first through `crossStep`. -/
def replaceAcrossContentBlocks (xml find rep : List Char)
    (caseSensitive wholeWords firstOnly : Bool) : CrossResult :=
  if (crossEls xml).isEmpty then ⟨xml, 0⟩
  else
    if (crossMatches xml find caseSensitive wholeWords firstOnly).isEmpty then ⟨xml, 0⟩
    else
      let r := crossLoop xml (crossEls xml) (crossNormMap xml) rep firstOnly
        (crossMatches xml find caseSensitive wholeWords firstOnly).reverse (xml, 0)
      ⟨r.1, r.2⟩

/-- Rebuild of a `String.replace(regex, callback)` call over the element
matches of one tag pair: the text between matches is copied, each match is
rewritten by splicing the transformed inner capture over the first
occurrence of the old inner capture inside the full match
(`match.replace(contentText, newText)` in the source), and the per-match
counts are summed.  `q` is the current copy position. -/
def rebuildElems (xml : List Char) (g : List Char → List Char × Nat) :
    List Elem → Nat → List Char × Nat
  | [], q => (xml.drop q, 0)
  | el :: rest, q =>
    let inner := elemInner xml el
    let full := elemFull xml el
    let r := g inner
    let newFull := replaceFirstSub full inner r.1
    let t := rebuildElems xml g rest el.fullEnd
    ((xml.drop q).take (el.fullStart - q) ++ newFull ++ t.1, r.2 + t.2)

/-- Rebuild of the first-occurrence variant: after the first successful
transformation the source's `done` flag makes every later callback return
its match unchanged, so the remainder of the fragment is copied as is. -/
def rebuildElemsOnce (xml : List Char) (g : List Char → List Char × Nat) :
    List Elem → Nat → List Char × Nat
  | [], q => (xml.drop q, 0)
  | el :: rest, q =>
    let inner := elemInner xml el
    let full := elemFull xml el
    let r := g inner
    if 0 < r.2 then
      ((xml.drop q).take (el.fullStart - q) ++ replaceFirstSub full inner r.1 ++
        xml.drop el.fullEnd, r.2)
    else
      let t := rebuildElemsOnce xml g rest el.fullEnd
      ((xml.drop q).take (el.fullStart - q) ++ full ++ t.1, t.2)

/-- One global regex-replace pass over all elements of a tag pair. -/
def runPass (xml openTok closeTok : List Char) (g : List Char → List Char × Nat) :
    List Char × Nat :=
  rebuildElems xml g (scanElems xml openTok closeTok) 0

/-- One first-occurrence regex-replace pass over the elements of a tag pair. -/
def runPassOnce (xml openTok closeTok : List Char) (g : List Char → List Char × Nat) :
    List Char × Nat :=
  rebuildElemsOnce xml g (scanElems xml openTok closeTok) 0

/-- Result of a per-story replacement (`newXml` and `count`; the debug
match list and match type of the source are not modelled). -/
structure XmlResult where
  newXml : List Char
  count : Nat
  deriving DecidableEq, Repr

/-- `performXMLTextReplacement`: a pass over all `<Content>` elements, a
second pass over `<Content>` elements inside `<CharacterStyleRange>`
elements of the already rewritten text, and, when both passes found
nothing, the cross-block fallback applied to the original fragment. -/
def performXMLTextReplacement (xml find rep : List Char)
    (caseSensitive wholeWords : Bool) : XmlResult :=
  let g := fun t =>
    let r := replaceTextContent t find rep caseSensitive wholeWords
    (r.newText, r.replacementCount)
  let p1 := runPass xml contentOpenTok contentCloseTok g
  let p2 := runPass p1.1 csrOpenTok csrCloseTok
    (fun t => runPass t contentOpenTok contentCloseTok g)
  let count := p1.2 + p2.2
  if count = 0 then
    let cr := replaceAcrossContentBlocks xml find rep caseSensitive wholeWords false
    if 0 < cr.count then ⟨cr.newXml, cr.count⟩ else ⟨p2.1, 0⟩
  else ⟨p2.1, count⟩

/-- `performXMLTextReplacementOnce`: like `performXMLTextReplacement` but
each stage stops after the first successful replacement and later stages
run only when the earlier ones found nothing. -/
def performXMLTextReplacementOnce (xml find rep : List Char)
    (caseSensitive wholeWords : Bool) : XmlResult :=
  let g := fun t =>
    let r := replaceTextContentOnce t find rep caseSensitive wholeWords
    (r.newText, r.replacementCount)
  let p1 := runPassOnce xml contentOpenTok contentCloseTok g
  if 0 < p1.2 then ⟨p1.1, p1.2⟩
  else
    let p2 := runPassOnce p1.1 csrOpenTok csrCloseTok
      (fun t => runPassOnce t contentOpenTok contentCloseTok g)
    if 0 < p2.2 then ⟨p2.1, p2.2⟩
    else
      let cr := replaceAcrossContentBlocks xml find rep caseSensitive wholeWords true
      if 0 < cr.count then ⟨cr.newXml, cr.count⟩ else ⟨p2.1, 0⟩

/-- One replacement rule with its merged per-rule options (the source
merges global options and `replacement.options` with `Object.assign`). -/
structure Rule where
  find : List Char
  replace : List Char
  caseSensitive : Bool
  wholeWords : Bool
  replaceAll : Bool
  deriving DecidableEq, Repr

/-- One entry of the replacement log (the debug snippet of the source is
not modelled). -/
structure LogEntry where
  file : String
  original : List Char
  replacement : List Char
  count : Nat
  deriving DecidableEq, Repr

/-- Walker state: the modified-files overlay, the total applied count and
the replacement log. -/
structure RunState where
  modified : List (String × List Char)
  total : Nat
  log : List LogEntry
  deriving DecidableEq, Repr

/-- Lookup in the modified-files overlay (`modifiedFiles.get`). -/
def lookupMod (m : List (String × List Char)) (p : String) : Option (List Char) :=
  (m.find? (fun e => e.1 = p)).map Prod.snd

/-- Update of the modified-files overlay (`modifiedFiles.set`). -/
def setMod (m : List (String × List Char)) (p : String) (v : List Char) :
    List (String × List Char) :=
  match m with
  | [] => [(p, v)]
  | e :: rest => if e.1 = p then (p, v) :: rest else e :: setMod rest p v

/-- Content the walker reads for a story: the story's latest edited
version when one exists, the original otherwise. -/
def readStory (modified : List (String × List Char)) (story : String × List Char) :
    List Char :=
  (lookupMod modified story.1).getD story.2

/-- One story step of the all-occurrences branch of `processReplacements`:
run the replacement on the story's current content and, when something was
replaced and the result passes the well-formedness check `wf` (the
`DOMParser` validation, an external collaborator), store the new content,
add the count and append a log record; otherwise leave the state
untouched. -/
def allStep (wf : List Char → Bool) (r : Rule) (st : RunState)
    (story : String × List Char) : RunState :=
  let content := readStory st.modified story
  let res := performXMLTextReplacement content r.find r.replace r.caseSensitive r.wholeWords
  if 0 < res.count then
    if wf res.newXml then
      ⟨setMod st.modified story.1 res.newXml, st.total + res.count,
        st.log ++ [⟨story.1, r.find, r.replace, res.count⟩]⟩
    else st
  else st

/-- All-occurrences branch: every story is visited in order. -/
def processRuleAll (wf : List Char → Bool) (r : Rule)
    (stories : List (String × List Char)) (st : RunState) : RunState :=
  stories.foldl (allStep wf r) st

/-- First-occurrence branch of `processReplacements`: stories are visited
in order; on the first story whose replacement succeeds and validates, the
state is updated and the loop breaks; a story whose replacement succeeds
but fails validation is skipped and the walk continues with the next
story. -/
def processRuleFirst (wf : List Char → Bool) (r : Rule) :
    List (String × List Char) → RunState → RunState
  | [], st => st
  | story :: rest, st =>
    let content := readStory st.modified story
    let res := performXMLTextReplacementOnce content r.find r.replace r.caseSensitive r.wholeWords
    if 0 < res.count && wf res.newXml then
      ⟨setMod st.modified story.1 res.newXml, st.total + res.count,
        st.log ++ [⟨story.1, r.find, r.replace, res.count⟩]⟩
    else processRuleFirst wf r rest st

/-- One rule step of `processReplacements`: a rule with an empty find or
replace string is skipped silently (`continue` in the source); otherwise
the all-occurrences or first-occurrence branch runs according to the
rule's merged options. -/
def ruleStep (wf : List Char → Bool) (stories : List (String × List Char))
    (st : RunState) (r : Rule) : RunState :=
  if r.find = [] || r.replace = [] then st
  else if r.replaceAll then processRuleAll wf r stories st
  else processRuleFirst wf r stories st

/-- The walk of `processReplacements` over the rule list, starting from an
empty overlay. -/
def processReplacements (wf : List Char → Bool) (rules : List Rule)
    (stories : List (String × List Char)) : RunState :=
  rules.foldl (ruleStep wf stories) ⟨[], 0, []⟩

/-- Packaging validation of `createModifiedIDML`: every modified XML entry
must pass the well-formedness check, otherwise packaging throws. -/
def validateModified (wf : List Char → Bool) (m : List (String × List Char)) : Bool :=
  m.all (fun e => wf e.2)

/-- Simultaneous splice over resolved spans, written with a cursor: every
segment of the output between two replacements is a literal slice of the
original text at its original offsets.  This is the specification-side
meaning of "the resolved source offsets of every earlier match remain
valid": applying the replacements from the last match to the first must
coincide with this one-pass assembly. -/
def simulSpliceAux (text rep : List Char) (cur : Nat) : List (Nat × Nat) → List Char
  | [] => text.drop cur
  | (s, e) :: rest => (text.drop cur).take (s - cur) ++ rep ++ simulSpliceAux text rep e rest

/-- Simultaneous splice starting at the beginning of the text. -/
def simulSplice (text rep : List Char) (spans : List (Nat × Nat)) : List Char :=
  simulSpliceAux text rep 0 spans

/-- Sortedness of resolved spans: starting from a cursor, every span lies
at or after the cursor, is well formed, ends within the text, and the
cursor advances to its end. -/
def sortedSpansB (cur len : Nat) : List (Nat × Nat) → Bool
  | [] => true
  | (s, e) :: rest =>
    decide (cur ≤ s) && decide (s ≤ e) && decide (e ≤ len) && sortedSpansB e len rest

/-- Whether a fragment starts with one of the five predefined XML
entities (proof-side helper describing when the entity branches of
`unescAux` fire). -/
def entStart (l : List Char) : Bool :=
  (['&', 'a', 'm', 'p', ';'].isPrefixOf l) || (['&', 'l', 't', ';'].isPrefixOf l) ||
  (['&', 'g', 't', ';'].isPrefixOf l) || (['&', 'q', 'u', 'o', 't', ';'].isPrefixOf l) ||
  (['&', 'a', 'p', 'o', 's', ';'].isPrefixOf l)

/-- Composition of the two index maps of `_normalizedReplace`: a
normalized index is sent through `mapNormToUnesc` and then `mapUnesc`
back to an original-fragment offset. -/
def mapBack (t : List Char) (n : Nat) : Nat :=
  (unescMap t).getD ((normMapOf t).getD n 0) 0

/-! ### Matcher lemmas -/

theorem searchAllAux_mem : ∀ {fuel idx : Nat} {s pat : List Char} {fo : Bool} {m : Span},
    m ∈ searchAllAux fuel s pat fo idx →
    idx ≤ m.start ∧ m.stop = m.start + pat.length ∧ m.stop ≤ s.length ∧ m.start < m.stop := by
  intro fuel
  induction fuel with
  | zero => intro idx s pat fo m h; simp [searchAllAux] at h
  | succ n ih =>
    intro idx s pat fo m h
    by_cases hp : pat = []
    · simp [searchAllAux, hp] at h
    · simp only [searchAllAux, if_neg hp] at h
      cases hf : indexOfFrom s pat idx with
      | none => rw [hf] at h; simp at h
      | some f =>
        rw [hf] at h
        have hb := indexOfFrom_bounds hf
        have hl : 0 < pat.length := List.length_pos.mpr hp
        cases fo with
        | true =>
          simp at h
          subst h
          refine ⟨hb.1, rfl, hb.2, by show f < f + pat.length; omega⟩
        | false =>
          simp at h
          rcases h with h | h
          · subst h
            refine ⟨hb.1, rfl, hb.2, by show f < f + pat.length; omega⟩
          · have := ih h
            exact ⟨by omega, this.2.1, this.2.2.1, this.2.2.2⟩

theorem searchAllAux_pairwise : ∀ {fuel idx : Nat} {s pat : List Char} {fo : Bool},
    List.Pairwise (fun a b => a.stop ≤ b.start) (searchAllAux fuel s pat fo idx) := by
  intro fuel
  induction fuel with
  | zero => intro idx s pat fo; simp [searchAllAux]
  | succ n ih =>
    intro idx s pat fo
    by_cases hp : pat = []
    · simp [searchAllAux, hp]
    · simp only [searchAllAux, if_neg hp]
      cases hf : indexOfFrom s pat idx with
      | none => simp
      | some f =>
        simp only
        cases fo with
        | true => simp
        | false =>
          simp only [if_neg Bool.false_ne_true]
          refine List.Pairwise.cons ?_ ih
          intro b hb
          have := (searchAllAux_mem hb).1
          simpa using this

theorem searchAllAux_firstOnly : ∀ (fuel idx : Nat) (s pat : List Char),
    searchAllAux fuel s pat true idx = (searchAllAux fuel s pat false idx).take 1 := by
  intro fuel idx s pat
  cases fuel with
  | zero => simp [searchAllAux]
  | succ n =>
    by_cases hp : pat = []
    · simp [searchAllAux, hp]
    · simp only [searchAllAux, if_neg hp]
      cases hf : indexOfFrom s pat idx with
      | none => simp
      | some f => simp

theorem searchWWAux_mem : ∀ {fuel idx : Nat} {s pat : List Char} {fo : Bool} {m : Span},
    m ∈ searchWWAux fuel s pat fo idx →
    idx ≤ m.start ∧ m.stop = m.start + pat.length ∧ m.stop ≤ s.length ∧ m.start < m.stop := by
  intro fuel
  induction fuel with
  | zero => intro idx s pat fo m h; simp [searchWWAux] at h
  | succ n ih =>
    intro idx s pat fo m h
    by_cases hp : pat = []
    · simp [searchWWAux, hp] at h
    · simp only [searchWWAux, if_neg hp] at h
      cases hf : indexOfFrom s pat idx with
      | none => rw [hf] at h; simp at h
      | some f =>
        rw [hf] at h
        have hb := indexOfFrom_bounds hf
        have hl : 0 < pat.length := List.length_pos.mpr hp
        by_cases hok : boundaryOk s pat f
        · cases fo with
          | true =>
            simp [hok] at h
            subst h
            exact ⟨hb.1, rfl, hb.2, by show f < f + pat.length; omega⟩
          | false =>
            simp [hok] at h
            rcases h with h | h
            · subst h
              exact ⟨hb.1, rfl, hb.2, by show f < f + pat.length; omega⟩
            · have := ih h
              exact ⟨by omega, this.2.1, this.2.2.1, this.2.2.2⟩
        · simp [hok] at h
          have := ih h
          exact ⟨by omega, this.2.1, this.2.2.1, this.2.2.2⟩

theorem searchWWAux_pairwise : ∀ {fuel idx : Nat} {s pat : List Char} {fo : Bool},
    List.Pairwise (fun a b => a.start < b.start) (searchWWAux fuel s pat fo idx) := by
  intro fuel
  induction fuel with
  | zero => intro idx s pat fo; simp [searchWWAux]
  | succ n ih =>
    intro idx s pat fo
    by_cases hp : pat = []
    · simp [searchWWAux, hp]
    · simp only [searchWWAux, if_neg hp]
      cases hf : indexOfFrom s pat idx with
      | none => simp
      | some f =>
        simp only
        by_cases hok : boundaryOk s pat f
        · rw [if_pos hok]
          cases fo with
          | true => simp
          | false =>
            simp only [if_neg Bool.false_ne_true]
            refine List.Pairwise.cons ?_ ih
            intro b hb
            have := (searchWWAux_mem hb).1
            show f < b.start
            omega
        · rw [if_neg hok]
          exact ih

theorem searchWWAux_firstOnly : ∀ (fuel idx : Nat) (s pat : List Char),
    searchWWAux fuel s pat true idx = (searchWWAux fuel s pat false idx).take 1 := by
  intro fuel
  induction fuel with
  | zero => intro idx s pat; simp [searchWWAux]
  | succ n ih =>
    intro idx s pat
    by_cases hp : pat = []
    · simp [searchWWAux, hp]
    · simp only [searchWWAux, if_neg hp]
      cases hf : indexOfFrom s pat idx with
      | none => simp
      | some f =>
        simp only
        by_cases hok : boundaryOk s pat f
        · rw [if_pos hok, if_pos hok]
          simp
        · rw [if_neg hok, if_neg hok]
          exact ih (f + 1) s pat

/-! ### Normalizer lemmas -/

theorem unescAux_cons_default {c : Char} {rest : List Char} (i : Nat)
    (h : entStart (c :: rest) = false) :
    unescAux (c :: rest) i = (c, i) :: unescAux rest (i + 1) := by
  simp only [entStart, Bool.or_eq_false_iff] at h
  rw [unescAux.eq_def]
  split
  · exfalso
    rename_i heq
    injection heq with h1 h2
    subst h1; subst h2
    simp [List.isPrefixOf] at h
  · exfalso
    rename_i heq
    injection heq with h1 h2
    subst h1; subst h2
    simp [List.isPrefixOf] at h
  · exfalso
    rename_i heq
    injection heq with h1 h2
    subst h1; subst h2
    simp [List.isPrefixOf] at h
  · exfalso
    rename_i heq
    injection heq with h1 h2
    subst h1; subst h2
    simp [List.isPrefixOf] at h
  · exfalso
    rename_i heq
    injection heq with h1 h2
    subst h1; subst h2
    simp [List.isPrefixOf] at h
  · rename_i heq
    injection heq with h1 h2
    subst h1; subst h2
    rfl
  · rename_i heq
    simp at heq

theorem entStart_false_of_nomatch {c : Char} {rest : List Char}
    (h1 : ∀ r, c = '&' → rest = 'a' :: 'm' :: 'p' :: ';' :: r → False)
    (h2 : ∀ r, c = '&' → rest = 'l' :: 't' :: ';' :: r → False)
    (h3 : ∀ r, c = '&' → rest = 'g' :: 't' :: ';' :: r → False)
    (h4 : ∀ r, c = '&' → rest = 'q' :: 'u' :: 'o' :: 't' :: ';' :: r → False)
    (h5 : ∀ r, c = '&' → rest = 'a' :: 'p' :: 'o' :: 's' :: ';' :: r → False) :
    entStart (c :: rest) = false := by
  simp only [entStart, Bool.or_eq_false_iff]
  refine ⟨⟨⟨⟨?_, ?_⟩, ?_⟩, ?_⟩, ?_⟩ <;>
  · rw [Bool.eq_false_iff]
    intro hpre
    rw [List.isPrefixOf_iff_prefix, List.cons_prefix_cons] at hpre
    obtain ⟨hc, ⟨r, hr⟩⟩ := hpre
    first
      | exact h1 r hc.symm hr.symm
      | exact h2 r hc.symm hr.symm
      | exact h3 r hc.symm hr.symm
      | exact h4 r hc.symm hr.symm
      | exact h5 r hc.symm hr.symm

theorem unescAux_pos : ∀ (l : List Char) (i : Nat),
    (∀ q ∈ unescAux l i, i ≤ q.2 ∧ q.2 < i + l.length) ∧
    List.Pairwise (fun a b => a.2 < b.2) (unescAux l i) := by
  have step : ∀ (d : Char) (i k L : Nat) (T : List (Char × Nat)), 0 < k → k ≤ L →
      ((∀ q ∈ T, i + k ≤ q.2 ∧ q.2 < i + k + (L - k)) ∧
        List.Pairwise (fun a b => a.2 < b.2) T) →
      ((∀ q ∈ (d, i) :: T, i ≤ q.2 ∧ q.2 < i + L) ∧
        List.Pairwise (fun a b => a.2 < b.2) ((d, i) :: T)) := by
    intro d i k L T hk hkL ⟨hB, hP⟩
    constructor
    · intro q hq
      rcases List.mem_cons.mp hq with rfl | hq
      · constructor
        · exact Nat.le_refl i
        · show i < i + L; omega
      · have := hB q hq; omega
    · refine List.Pairwise.cons ?_ hP
      intro b hb
      have := hB b hb
      show i < b.2
      omega
  intro l i
  induction l, i using unescAux.induct with
  | case1 rest i ih =>
    have := step '&' i 5 (rest.length + 5) (unescAux rest (i + 5)) (by omega) (by omega)
      (by constructor; · intro q hq; have := ih.1 q hq; omega
          · exact ih.2)
    simpa [unescAux] using this
  | case2 rest i ih =>
    have := step '<' i 4 (rest.length + 4) (unescAux rest (i + 4)) (by omega) (by omega)
      (by constructor; · intro q hq; have := ih.1 q hq; omega
          · exact ih.2)
    simpa [unescAux] using this
  | case3 rest i ih =>
    have := step '>' i 4 (rest.length + 4) (unescAux rest (i + 4)) (by omega) (by omega)
      (by constructor; · intro q hq; have := ih.1 q hq; omega
          · exact ih.2)
    simpa [unescAux] using this
  | case4 rest i ih =>
    have := step '"' i 6 (rest.length + 6) (unescAux rest (i + 6)) (by omega) (by omega)
      (by constructor; · intro q hq; have := ih.1 q hq; omega
          · exact ih.2)
    simpa [unescAux] using this
  | case5 rest i ih =>
    have := step apos i 6 (rest.length + 6) (unescAux rest (i + 6)) (by omega) (by omega)
      (by constructor; · intro q hq; have := ih.1 q hq; omega
          · exact ih.2)
    simpa [unescAux] using this
  | case6 c rest i h1 h2 h3 h4 h5 ih =>
    have hd := @unescAux_cons_default c rest i
      (entStart_false_of_nomatch h1 h2 h3 h4 h5)
    rw [hd]
    have := step c i 1 (rest.length + 1) (unescAux rest (i + 1)) (by omega) (by omega)
      (by constructor; · intro q hq; have := ih.1 q hq; omega
          · exact ih.2)
    simpa using this
  | case7 i => simp [unescAux]

theorem entStart_prefix_mono {l1 l2 : List Char} (hpre : l1 <+: l2)
    (h : entStart l2 = false) : entStart l1 = false := by
  simp only [entStart, Bool.or_eq_false_iff] at h ⊢
  obtain ⟨⟨⟨⟨a1, a2⟩, a3⟩, a4⟩, a5⟩ := h
  refine ⟨⟨⟨⟨?_, ?_⟩, ?_⟩, ?_⟩, ?_⟩ <;>
  · rw [Bool.eq_false_iff]
    intro hp
    rw [List.isPrefixOf_iff_prefix] at hp
    have h2 := hp.trans hpre
    rw [← List.isPrefixOf_iff_prefix] at h2
    first
      | (rw [a1] at h2; exact absurd h2 (by simp))
      | (rw [a2] at h2; exact absurd h2 (by simp))
      | (rw [a3] at h2; exact absurd h2 (by simp))
      | (rw [a4] at h2; exact absurd h2 (by simp))
      | (rw [a5] at h2; exact absurd h2 (by simp))

theorem unescAux_prefix : ∀ (l : List Char) (i : Nat), ∀ (n : Nat) (d : Char) (p : ℕ),
    (unescAux l i)[n]? = some (d, p) →
    unescAux (l.take (p - i)) i = (unescAux l i).take n := by
  intro l i
  induction l, i using unescAux.induct with
  | case1 rest i ih =>
    intro n d p h
    cases n with
    | zero =>
      simp only [show unescAux ('&' :: 'a' :: 'm' :: 'p' :: ';' :: rest) i
          = ('&', i) :: unescAux rest (i + 5) from rfl, List.getElem?_cons_zero,
        Option.some.injEq, Prod.mk.injEq] at h
      obtain ⟨-, hp⟩ := h
      subst hp
      simp [unescAux]
    | succ n =>
      rw [show unescAux ('&' :: 'a' :: 'm' :: 'p' :: ';' :: rest) i
          = ('&', i) :: unescAux rest (i + 5) from rfl] at h
      simp only [List.getElem?_cons_succ] at h
      have hmem : (d, p) ∈ unescAux rest (i + 5) := List.getElem?_mem h
      have hb := (unescAux_pos rest (i + 5)).1 _ hmem
      have hIH := ih n d p h
      obtain ⟨m, hm⟩ : ∃ m, p - i = m + 5 := ⟨p - i - 5, by omega⟩
      rw [hm]
      have hm2 : m = p - (i + 5) := by omega
      show ('&', i) :: unescAux (rest.take m) (i + 5)
          = (('&', i) :: unescAux rest (i + 5)).take (n + 1)
      rw [hm2, hIH]
      rfl
  | case2 rest i ih =>
    intro n d p h
    cases n with
    | zero =>
      simp only [show unescAux ('&' :: 'l' :: 't' :: ';' :: rest) i
          = ('<', i) :: unescAux rest (i + 4) from rfl, List.getElem?_cons_zero,
        Option.some.injEq, Prod.mk.injEq] at h
      obtain ⟨-, hp⟩ := h
      subst hp
      simp [unescAux]
    | succ n =>
      rw [show unescAux ('&' :: 'l' :: 't' :: ';' :: rest) i
          = ('<', i) :: unescAux rest (i + 4) from rfl] at h
      simp only [List.getElem?_cons_succ] at h
      have hmem : (d, p) ∈ unescAux rest (i + 4) := List.getElem?_mem h
      have hb := (unescAux_pos rest (i + 4)).1 _ hmem
      have hIH := ih n d p h
      obtain ⟨m, hm⟩ : ∃ m, p - i = m + 4 := ⟨p - i - 4, by omega⟩
      rw [hm]
      have hm2 : m = p - (i + 4) := by omega
      show ('<', i) :: unescAux (rest.take m) (i + 4)
          = (('<', i) :: unescAux rest (i + 4)).take (n + 1)
      rw [hm2, hIH]
      rfl
  | case3 rest i ih =>
    intro n d p h
    cases n with
    | zero =>
      simp only [show unescAux ('&' :: 'g' :: 't' :: ';' :: rest) i
          = ('>', i) :: unescAux rest (i + 4) from rfl, List.getElem?_cons_zero,
        Option.some.injEq, Prod.mk.injEq] at h
      obtain ⟨-, hp⟩ := h
      subst hp
      simp [unescAux]
    | succ n =>
      rw [show unescAux ('&' :: 'g' :: 't' :: ';' :: rest) i
          = ('>', i) :: unescAux rest (i + 4) from rfl] at h
      simp only [List.getElem?_cons_succ] at h
      have hmem : (d, p) ∈ unescAux rest (i + 4) := List.getElem?_mem h
      have hb := (unescAux_pos rest (i + 4)).1 _ hmem
      have hIH := ih n d p h
      obtain ⟨m, hm⟩ : ∃ m, p - i = m + 4 := ⟨p - i - 4, by omega⟩
      rw [hm]
      have hm2 : m = p - (i + 4) := by omega
      show ('>', i) :: unescAux (rest.take m) (i + 4)
          = (('>', i) :: unescAux rest (i + 4)).take (n + 1)
      rw [hm2, hIH]
      rfl
  | case4 rest i ih =>
    intro n d p h
    cases n with
    | zero =>
      simp only [show unescAux ('&' :: 'q' :: 'u' :: 'o' :: 't' :: ';' :: rest) i
          = ('\"', i) :: unescAux rest (i + 6) from rfl, List.getElem?_cons_zero,
        Option.some.injEq, Prod.mk.injEq] at h
      obtain ⟨-, hp⟩ := h
      subst hp
      simp [unescAux]
    | succ n =>
      rw [show unescAux ('&' :: 'q' :: 'u' :: 'o' :: 't' :: ';' :: rest) i
          = ('\"', i) :: unescAux rest (i + 6) from rfl] at h
      simp only [List.getElem?_cons_succ] at h
      have hmem : (d, p) ∈ unescAux rest (i + 6) := List.getElem?_mem h
      have hb := (unescAux_pos rest (i + 6)).1 _ hmem
      have hIH := ih n d p h
      obtain ⟨m, hm⟩ : ∃ m, p - i = m + 6 := ⟨p - i - 6, by omega⟩
      rw [hm]
      have hm2 : m = p - (i + 6) := by omega
      show ('\"', i) :: unescAux (rest.take m) (i + 6)
          = (('\"', i) :: unescAux rest (i + 6)).take (n + 1)
      rw [hm2, hIH]
      rfl
  | case5 rest i ih =>
    intro n d p h
    cases n with
    | zero =>
      simp only [show unescAux ('&' :: 'a' :: 'p' :: 'o' :: 's' :: ';' :: rest) i
          = (apos, i) :: unescAux rest (i + 6) from rfl, List.getElem?_cons_zero,
        Option.some.injEq, Prod.mk.injEq] at h
      obtain ⟨-, hp⟩ := h
      subst hp
      simp [unescAux]
    | succ n =>
      rw [show unescAux ('&' :: 'a' :: 'p' :: 'o' :: 's' :: ';' :: rest) i
          = (apos, i) :: unescAux rest (i + 6) from rfl] at h
      simp only [List.getElem?_cons_succ] at h
      have hmem : (d, p) ∈ unescAux rest (i + 6) := List.getElem?_mem h
      have hb := (unescAux_pos rest (i + 6)).1 _ hmem
      have hIH := ih n d p h
      obtain ⟨m, hm⟩ : ∃ m, p - i = m + 6 := ⟨p - i - 6, by omega⟩
      rw [hm]
      have hm2 : m = p - (i + 6) := by omega
      show (apos, i) :: unescAux (rest.take m) (i + 6)
          = ((apos, i) :: unescAux rest (i + 6)).take (n + 1)
      rw [hm2, hIH]
      rfl
  | case6 c rest i h1 h2 h3 h4 h5 ih =>
    intro n d p h
    have hes : entStart (c :: rest) = false := entStart_false_of_nomatch h1 h2 h3 h4 h5
    have hd0 := @unescAux_cons_default c rest i hes
    rw [hd0] at h ⊢
    cases n with
    | zero =>
      simp only [List.getElem?_cons_zero, Option.some.injEq, Prod.mk.injEq] at h
      obtain ⟨-, hp⟩ := h
      subst hp
      simp [unescAux]
    | succ n =>
      simp only [List.getElem?_cons_succ] at h
      have hmem : (d, p) ∈ unescAux rest (i + 1) := List.getElem?_mem h
      have hb := (unescAux_pos rest (i + 1)).1 _ hmem
      have hIH := ih n d p h
      obtain ⟨m, hm⟩ : ∃ m, p - i = m + 1 := ⟨p - i - 1, by omega⟩
      rw [hm]
      have hm2 : m = p - (i + 1) := by omega
      have htake : (c :: rest).take (m + 1) = c :: rest.take m := rfl
      rw [htake]
      have hes2 : entStart (c :: rest.take m) = false := by
        refine entStart_prefix_mono ?_ hes
        exact List.cons_prefix_cons.mpr ⟨rfl, List.take_prefix m rest⟩
      rw [unescAux_cons_default i hes2, hm2, hIH]
      rfl
  | case7 i =>
    intro n d p h
    simp [unescAux] at h

theorem normAux_pos : ∀ (l : List Char) (i : Nat) (b : Bool),
    (∀ q ∈ normAux l i b, i ≤ q.2 ∧ q.2 < i + l.length) ∧
    List.Pairwise (fun a b => a.2 < b.2) (normAux l i b) := by
  intro l
  induction l with
  | nil => intro i b; simp [normAux]
  | cons c rest ih =>
    intro i b
    by_cases hs : isSpaceChar c
    · cases b with
      | true =>
        have hred : normAux (c :: rest) i true = normAux rest (i + 1) true := by
          simp [normAux, hs]
        rw [hred]
        constructor
        · intro q hq
          have := (ih (i + 1) true).1 q hq
          simp only [List.length_cons]
          omega
        · exact (ih (i + 1) true).2
      | false =>
        have hred : normAux (c :: rest) i false = (' ', i) :: normAux rest (i + 1) true := by
          simp [normAux, hs]
        rw [hred]
        constructor
        · intro q hq
          rcases List.mem_cons.mp hq with rfl | hq
          · simp only [List.length_cons]
            constructor
            · exact Nat.le_refl i
            · show i < i + (rest.length + 1); omega
          · have := (ih (i + 1) true).1 q hq
            simp only [List.length_cons]
            omega
        · refine List.Pairwise.cons ?_ (ih (i + 1) true).2
          intro q hq
          have := (ih (i + 1) true).1 q hq
          show i < q.2
          omega
    · have hred : normAux (c :: rest) i b = (c, i) :: normAux rest (i + 1) false := by
        simp [normAux, hs]
      rw [hred]
      constructor
      · intro q hq
        rcases List.mem_cons.mp hq with rfl | hq
        · simp only [List.length_cons]
          constructor
          · exact Nat.le_refl i
          · show i < i + (rest.length + 1); omega
        · have := (ih (i + 1) false).1 q hq
          simp only [List.length_cons]
          omega
      · refine List.Pairwise.cons ?_ (ih (i + 1) false).2
        intro q hq
        have := (ih (i + 1) false).1 q hq
        show i < q.2
        omega

theorem normAux_prefix : ∀ (l : List Char) (i : Nat) (b : Bool) (n : Nat) (d : Char) (p : Nat),
    (normAux l i b)[n]? = some (d, p) →
    normAux (l.take (p - i)) i b = (normAux l i b).take n := by
  intro l
  induction l with
  | nil => intro i b n d p h; simp [normAux] at h
  | cons c rest ih =>
    intro i b n d p h
    by_cases hs : isSpaceChar c
    · cases b with
      | true =>
        have hred : normAux (c :: rest) i true = normAux rest (i + 1) true := by
          simp [normAux, hs]
        rw [hred] at h
        have hmem : (d, p) ∈ normAux rest (i + 1) true := List.getElem?_mem h
        have hb := (normAux_pos rest (i + 1) true).1 _ hmem
        have hIH := ih (i + 1) true n d p h
        obtain ⟨m, hm⟩ : ∃ m, p - i = m + 1 := ⟨p - i - 1, by omega⟩
        rw [hm, hred]
        have htake : (c :: rest).take (m + 1) = c :: rest.take m := rfl
        rw [htake]
        have hred2 : normAux (c :: rest.take m) i true = normAux (rest.take m) (i + 1) true := by
          simp [normAux, hs]
        rw [hred2]
        have hm2 : m = p - (i + 1) := by omega
        rw [hm2, hIH]
      | false =>
        have hred : normAux (c :: rest) i false = (' ', i) :: normAux rest (i + 1) true := by
          simp [normAux, hs]
        rw [hred] at h ⊢
        cases n with
        | zero =>
          simp only [List.getElem?_cons_zero, Option.some.injEq, Prod.mk.injEq] at h
          obtain ⟨-, hp⟩ := h
          subst hp
          simp [normAux]
        | succ n =>
          simp only [List.getElem?_cons_succ] at h
          have hmem : (d, p) ∈ normAux rest (i + 1) true := List.getElem?_mem h
          have hb := (normAux_pos rest (i + 1) true).1 _ hmem
          have hIH := ih (i + 1) true n d p h
          obtain ⟨m, hm⟩ : ∃ m, p - i = m + 1 := ⟨p - i - 1, by omega⟩
          rw [hm]
          have htake : (c :: rest).take (m + 1) = c :: rest.take m := rfl
          rw [htake]
          have hred2 : normAux (c :: rest.take m) i false
              = (' ', i) :: normAux (rest.take m) (i + 1) true := by
            simp [normAux, hs]
          rw [hred2]
          have hm2 : m = p - (i + 1) := by omega
          rw [hm2, hIH]
          rfl
    · have hred : normAux (c :: rest) i b = (c, i) :: normAux rest (i + 1) false := by
        simp [normAux, hs]
      rw [hred] at h ⊢
      cases n with
      | zero =>
        simp only [List.getElem?_cons_zero, Option.some.injEq, Prod.mk.injEq] at h
        obtain ⟨-, hp⟩ := h
        subst hp
        simp [normAux]
      | succ n =>
        simp only [List.getElem?_cons_succ] at h
        have hmem : (d, p) ∈ normAux rest (i + 1) false := List.getElem?_mem h
        have hb := (normAux_pos rest (i + 1) false).1 _ hmem
        have hIH := ih (i + 1) false n d p h
        obtain ⟨m, hm⟩ : ∃ m, p - i = m + 1 := ⟨p - i - 1, by omega⟩
        rw [hm]
        have htake : (c :: rest).take (m + 1) = c :: rest.take m := rfl
        rw [htake]
        have hred2 : normAux (c :: rest.take m) i b
            = (c, i) :: normAux (rest.take m) (i + 1) false := by
          simp [normAux, hs]
        rw [hred2]
        have hm2 : m = p - (i + 1) := by omega
        rw [hm2, hIH]
        rfl

theorem getD_map_snd {l : List (Char × Nat)} {n : Nat} (h : n < l.length) :
    (l.map Prod.snd).getD n 0 = (l.get ⟨n, h⟩).2 := by
  rw [List.getD_eq_getElem?_getD]
  rw [List.getElem?_map]
  rw [List.getElem?_eq_getElem h]
  simp

/-- C6 (confirmed): for every fragment and every normalized index, mapping
the index back through both index maps (normalized to unescaped to
original, `mapBack`) and re-running the composed entity-decode and
whitespace-collapse normalization on the original prefix that ends at the
mapped-back offset reproduces exactly the first `n` normalized characters
with their maps; in particular the re-normalized prefix has length `n`, so
mapping back and re-normalizing returns the same normalized index. -/
theorem c6_roundtrip (t : List Char) (n : Nat) (h : n < (normPairsOf t).length) :
    normPairsOf (t.take (mapBack t n)) = (normPairsOf t).take n ∧
    (normTextOf (t.take (mapBack t n))).length = n := by
  have hu : (normMapOf t).getD n 0 = ((normPairsOf t).get ⟨n, h⟩).2 := getD_map_snd h
  set e := (normPairsOf t).get ⟨n, h⟩ with he
  have hmem : e ∈ normPairsOf t := List.get_mem _ _ h
  have hub : e.2 < (unescape t).length := by
    have := (normAux_pos (unescape t) 0 false).1 e hmem
    omega
  have hlen : (unescAux t 0).length = (unescape t).length := by
    simp [unescape]
  have hub2 : e.2 < (unescAux t 0).length := by omega
  have hs : (unescMap t).getD e.2 0 = ((unescAux t 0).get ⟨e.2, hub2⟩).2 :=
    getD_map_snd hub2
  set f := (unescAux t 0).get ⟨e.2, hub2⟩ with hf
  have hmb : mapBack t n = f.2 := by
    rw [mapBack, hu, hs]
  have hUpref : unescAux (t.take (f.2 - 0)) 0 = (unescAux t 0).take e.2 := by
    refine unescAux_prefix t 0 e.2 f.1 f.2 ?_
    rw [List.getElem?_eq_getElem hub2]
    rfl
  rw [Nat.sub_zero] at hUpref
  have hUnesc : unescape (t.take f.2) = (unescape t).take e.2 := by
    show (unescAux (t.take f.2) 0).map Prod.fst = (unescape t).take e.2
    rw [hUpref]
    show ((unescAux t 0).take e.2).map Prod.fst = ((unescAux t 0).map Prod.fst).take e.2
    exact List.map_take _ _ _
  have hNpref : normAux ((unescape t).take (e.2 - 0)) 0 false = (normPairsOf t).take n := by
    refine normAux_prefix (unescape t) 0 false n e.1 e.2 ?_
    rw [show normAux (unescape t) 0 false = normPairsOf t from rfl]
    rw [List.getElem?_eq_getElem h]
    rfl
  rw [Nat.sub_zero] at hNpref
  have hmain : normPairsOf (t.take (mapBack t n)) = (normPairsOf t).take n := by
    rw [hmb]
    show normAux (unescape (t.take f.2)) 0 false = (normPairsOf t).take n
    rw [hUnesc]
    exact hNpref
  refine ⟨hmain, ?_⟩
  show ((normPairsOf (t.take (mapBack t n))).map Prod.fst).length = n
  rw [hmain]
  simp
  omega

/-! ### Span resolution and splice lemmas -/

theorem spliceDesc_eq_simul (rep text : List Char) :
    ∀ (spans : List (Nat × Nat)) (cur : Nat), sortedSpansB cur text.length spans = true →
    List.foldr (fun p acc => spliceAt acc rep p.1 p.2) text spans =
      text.take cur ++ simulSpliceAux text rep cur spans := by
  intro spans
  induction spans with
  | nil =>
    intro cur _
    simp [simulSpliceAux]
  | cons hd rest ih =>
    intro cur hs
    obtain ⟨s, e⟩ := hd
    simp only [sortedSpansB, Bool.and_eq_true, decide_eq_true_eq] at hs
    obtain ⟨⟨⟨hcs, hse⟩, hel⟩, hrest⟩ := hs
    have hIH := ih e hrest
    simp only [List.foldr_cons]
    rw [hIH]
    simp only [spliceAt, simulSpliceAux]
    have hle : s ≤ (text.take e).length := by
      simp only [List.length_take]
      omega
    have htk : (text.take e ++ simulSpliceAux text rep e rest).take s = text.take s := by
      rw [List.take_append_of_le_length hle, List.take_take, Nat.min_eq_left hse]
    have hlen2 : (text.take e).length = e := by
      simp only [List.length_take]
      omega
    have hdr : (text.take e ++ simulSpliceAux text rep e rest).drop e
        = simulSpliceAux text rep e rest := by
      rw [List.drop_append_of_le_length (by omega)]
      have : (text.take e).drop e = [] := by
        apply List.drop_eq_nil_of_le
        omega
      rw [this, List.nil_append]
    rw [htk, hdr]
    have hsplit : text.take s = text.take cur ++ (text.drop cur).take (s - cur) := by
      have := List.take_add text cur (s - cur)
      rw [show cur + (s - cur) = s by omega] at this
      exact this
    rw [hsplit]
    simp [List.append_assoc]

theorem getD_eq_get {l : List Nat} {a : Nat} (h : a < l.length) :
    l.getD a 0 = l.get ⟨a, h⟩ := by
  rw [List.getD_eq_getElem?_getD, List.getElem?_eq_getElem h]
  rfl

theorem pairwise_getD_lt {l : List Nat} (hp : List.Pairwise (· < ·) l) {a b : Nat}
    (hab : a < b) (hb : b < l.length) : l.getD a 0 < l.getD b 0 := by
  have ha : a < l.length := by omega
  rw [getD_eq_get ha, getD_eq_get hb]
  exact List.pairwise_iff_get.mp hp ⟨a, ha⟩ ⟨b, hb⟩ hab

theorem pairwise_getD_le {l : List Nat} (hp : List.Pairwise (· < ·) l) {a b : Nat}
    (hab : a ≤ b) (hb : b < l.length) : l.getD a 0 ≤ l.getD b 0 := by
  rcases Nat.lt_or_ge a b with h | h
  · exact Nat.le_of_lt (pairwise_getD_lt hp h hb)
  · have : a = b := by omega
    subst this
    exact Nat.le_refl _

theorem getD_bound {l : List Nat} {B : Nat} (hB : ∀ p ∈ l, p < B) {a : Nat}
    (h : a < l.length) : l.getD a 0 < B := by
  rw [getD_eq_get h]
  exact hB _ (List.get_mem _ _ h)

theorem resolve_wf {mapN mapU : List Nat} {uLen oLen : Nat}
    (hNp : List.Pairwise (· < ·) mapN) (hNb : ∀ p ∈ mapN, p < uLen)
    (hUp : List.Pairwise (· < ·) mapU) (hUb : ∀ p ∈ mapU, p < oLen)
    (hULen : mapU.length = uLen) {m : Span}
    (h1 : m.start < m.stop) (h2 : m.stop ≤ mapN.length) :
    (resolveSpan mapN mapU uLen oLen m).1 ≤ (resolveSpan mapN mapU uLen oLen m).2 ∧
    (resolveSpan mapN mapU uLen oLen m).2 ≤ oLen ∧
    (resolveSpan mapN mapU uLen oLen m).1 < oLen := by
  have hms : m.start < mapN.length := by omega
  have huS : mapN.getD m.start 0 < uLen := getD_bound hNb hms
  have huSU : mapN.getD m.start 0 < mapU.length := by omega
  simp only [resolveSpan]
  by_cases hlt : m.stop < mapN.length
  · rw [if_pos hlt]
    have huE : mapN.getD m.stop 0 < uLen := getD_bound hNb hlt
    have huEU : mapN.getD m.stop 0 < mapU.length := by omega
    rw [if_pos huEU]
    have hSE : mapN.getD m.start 0 < mapN.getD m.stop 0 := pairwise_getD_lt hNp h1 hlt
    refine ⟨?_, ?_, ?_⟩
    · exact Nat.le_of_lt (pairwise_getD_lt hUp hSE huEU)
    · exact Nat.le_of_lt (getD_bound hUb huEU)
    · exact getD_bound hUb huSU
  · rw [if_neg hlt]
    rw [if_neg (by omega)]
    refine ⟨?_, Nat.le_refl _, ?_⟩
    · exact Nat.le_of_lt (getD_bound hUb huSU)
    · exact getD_bound hUb huSU

theorem resolve_chain {mapN mapU : List Nat} {uLen oLen : Nat}
    (hNp : List.Pairwise (· < ·) mapN) (hNb : ∀ p ∈ mapN, p < uLen)
    (hUp : List.Pairwise (· < ·) mapU) (hUb : ∀ p ∈ mapU, p < oLen)
    (hULen : mapU.length = uLen) {m1 m2 : Span}
    (h12 : m1.stop ≤ m2.start) (hs2 : m2.start < m2.stop) (h3 : m2.stop ≤ mapN.length) :
    (resolveSpan mapN mapU uLen oLen m1).2 ≤ (resolveSpan mapN mapU uLen oLen m2).1 := by
  have hm2s : m2.start < mapN.length := by omega
  have hm1e : m1.stop < mapN.length := by omega
  simp only [resolveSpan]
  rw [if_pos hm1e]
  have huE : mapN.getD m1.stop 0 < uLen := getD_bound hNb hm1e
  have huEU : mapN.getD m1.stop 0 < mapU.length := by omega
  rw [if_pos huEU]
  have huS2 : mapN.getD m2.start 0 < uLen := getD_bound hNb hm2s
  have huS2U : mapN.getD m2.start 0 < mapU.length := by omega
  have hNE : mapN.getD m1.stop 0 ≤ mapN.getD m2.start 0 := pairwise_getD_le hNp h12 hm2s
  exact pairwise_getD_le hUp hNE huS2U

theorem resolved_sorted_aux {mapN mapU : List Nat} {uLen oLen : Nat}
    (hNp : List.Pairwise (· < ·) mapN) (hNb : ∀ p ∈ mapN, p < uLen)
    (hUp : List.Pairwise (· < ·) mapU) (hUb : ∀ p ∈ mapU, p < oLen)
    (hULen : mapU.length = uLen) :
    ∀ (spans : List Span) (c : Nat),
      List.Pairwise (fun a b => a.stop ≤ b.start) spans →
      (∀ m ∈ spans, m.start < m.stop ∧ m.stop ≤ mapN.length) →
      (∀ m ∈ spans, c ≤ (resolveSpan mapN mapU uLen oLen m).1) →
      sortedSpansB c oLen (spans.map (resolveSpan mapN mapU uLen oLen)) = true := by
  intro spans
  induction spans with
  | nil => intro c _ _ _; simp [sortedSpansB]
  | cons m rest ih =>
    intro c hpw hmem hc
    have hm := hmem m (List.mem_cons_self m rest)
    have hwf := resolve_wf hNp hNb hUp hUb hULen hm.1 hm.2
    simp only [List.map_cons]
    rw [show (resolveSpan mapN mapU uLen oLen m)
        = ((resolveSpan mapN mapU uLen oLen m).1, (resolveSpan mapN mapU uLen oLen m).2)
      from rfl]
    simp only [sortedSpansB, Bool.and_eq_true, decide_eq_true_eq]
    refine ⟨⟨⟨hc m (List.mem_cons_self m rest), hwf.1⟩, hwf.2.1⟩, ?_⟩
    apply ih
    · exact (List.pairwise_cons.mp hpw).2
    · intro m2 hm2
      exact hmem m2 (List.mem_cons_of_mem m hm2)
    · intro m2 hm2
      have hm2f := hmem m2 (List.mem_cons_of_mem m hm2)
      have h12 : m.stop ≤ m2.start := (List.pairwise_cons.mp hpw).1 m2 hm2
      exact resolve_chain hNp hNb hUp hUb hULen h12 hm2f.1 hm2f.2

theorem normMap_pairwise (t : List Char) : List.Pairwise (· < ·) (normMapOf t) := by
  rw [show normMapOf t = (normPairsOf t).map Prod.snd from rfl, List.pairwise_map]
  exact (normAux_pos (unescape t) 0 false).2

theorem normMap_bound (t : List Char) : ∀ p ∈ normMapOf t, p < (unescape t).length := by
  intro p hp
  rw [show normMapOf t = (normPairsOf t).map Prod.snd from rfl] at hp
  obtain ⟨q, hq, rfl⟩ := List.mem_map.mp hp
  have := (normAux_pos (unescape t) 0 false).1 q hq
  omega

theorem unescMap_pairwise (t : List Char) : List.Pairwise (· < ·) (unescMap t) := by
  rw [show unescMap t = (unescAux t 0).map Prod.snd from rfl, List.pairwise_map]
  exact (unescAux_pos t 0).2

theorem unescMap_bound (t : List Char) : ∀ p ∈ unescMap t, p < t.length := by
  intro p hp
  rw [show unescMap t = (unescAux t 0).map Prod.snd from rfl] at hp
  obtain ⟨q, hq, rfl⟩ := List.mem_map.mp hp
  have := (unescAux_pos t 0).1 q hq
  omega

theorem unescMap_length (t : List Char) : (unescMap t).length = (unescape t).length := by
  simp [unescMap, unescPairs, unescape]

theorem searchHaystack_length (t : List Char) (cs : Bool) :
    (searchHaystack t cs).length = (normMapOf t).length := by
  cases cs <;> simp [searchHaystack, toLowerList, normTextOf, normMapOf]

theorem resolved_sorted (t find : List Char) (cs fo : Bool) :
    sortedSpansB 0 t.length (nrResolved t find cs false fo) = true := by
  refine resolved_sorted_aux (normMap_pairwise t) (normMap_bound t)
    (unescMap_pairwise t) (unescMap_bound t) (unescMap_length t) _ 0 ?_ ?_ ?_
  · rw [show nrMatches t find cs false fo
        = searchAllAux ((searchHaystack t cs).length + 1) (searchHaystack t cs)
            (searchNeedle find cs) fo 0 from rfl]
    exact searchAllAux_pairwise
  · intro m hm
    rw [show nrMatches t find cs false fo
        = searchAllAux ((searchHaystack t cs).length + 1) (searchHaystack t cs)
            (searchNeedle find cs) fo 0 from rfl] at hm
    have := searchAllAux_mem hm
    have hl := searchHaystack_length t cs
    exact ⟨this.2.2.2, by omega⟩
  · intro m hm
    exact Nat.zero_le _

theorem normalizedReplace_simul (t find rep : List Char) (cs fo : Bool) :
    (normalizedReplace t find rep cs false fo).newText
      = simulSplice t rep (nrResolved t find cs false fo) := by
  unfold normalizedReplace
  by_cases hE : (nrMatches t find cs false fo).isEmpty
  · rw [if_pos hE]
    have hms : nrMatches t find cs false fo = [] := List.isEmpty_iff.mp hE
    rw [show nrResolved t find cs false fo
        = (nrMatches t find cs false fo).map
            (resolveSpan (normMapOf t) (unescMap t) (unescape t).length t.length) from rfl]
    rw [hms]
    simp [simulSplice, simulSpliceAux]
  · rw [if_neg hE]
    have := spliceDesc_eq_simul rep t (nrResolved t find cs false fo) 0
      (resolved_sorted t find cs fo)
    simpa [simulSplice] using this

/-! ### Claim theorems for the matcher and the splice ordering -/

/-- C4 counterexample: in whole-word all-matches mode the matcher can
return overlapping spans; on haystack `a a a` with query `a a` it returns
the spans `[0,3)` and `[2,5)`, which overlap, refuting the claim that
spans are pairwise non-overlapping with the search resuming at the end of
the previous match in both modes. -/
theorem c4_counterexample :
    findMatches "a a a".toList "a a".toList true false = [⟨0, 3⟩, ⟨2, 5⟩] ∧
    ¬ List.Pairwise (fun a b => a.stop ≤ b.start)
      (findMatches "a a a".toList "a a".toList true false) := by
  constructor
  · decide
  · decide

/-- C4 (corrected): in all-matches mode without whole words the spans are
found left-to-right, pairwise non-overlapping, each subsequent search
resuming at the end of the previous match; with whole words the spans are
still left-to-right (strictly increasing starts) but the search resumes
one position past the previous start, so spans may overlap; in first-only
mode the matcher returns at most the first span of the corresponding
all-matches run. -/
theorem c4_matcher_spans (s pat : List Char) :
    List.Pairwise (fun a b => a.stop ≤ b.start) (findMatches s pat false false) ∧
    (∀ m ∈ findMatches s pat false false,
      m.start < m.stop ∧ m.stop = m.start + pat.length ∧ m.stop ≤ s.length) ∧
    List.Pairwise (fun a b => a.start < b.start) (findMatches s pat true false) ∧
    findMatches s pat false true = (findMatches s pat false false).take 1 ∧
    findMatches s pat true true = (findMatches s pat true false).take 1 := by
  refine ⟨?_, ?_, ?_, ?_, ?_⟩
  · exact searchAllAux_pairwise
  · intro m hm
    have := searchAllAux_mem hm
    exact ⟨this.2.2.2, this.2.1, this.2.2.1⟩
  · exact searchWWAux_pairwise
  · exact searchAllAux_firstOnly _ _ _ _
  · exact searchWWAux_firstOnly _ _ _ _

/-- Witness for C6 at a concrete fragment containing a multi-character
entity and a whitespace run. -/
theorem c6_roundtrip_witness :
    3 < (normPairsOf "A&amp;  B".toList).length ∧
    (normPairsOf ("A&amp;  B".toList.take (mapBack "A&amp;  B".toList 3))
        = (normPairsOf "A&amp;  B".toList).take 3 ∧
      (normTextOf ("A&amp;  B".toList.take (mapBack "A&amp;  B".toList 3))).length = 3) :=
  ⟨by decide, c6_roundtrip ("A&amp;  B".toList) 3 (by decide)⟩

/-! ### Cross-block substitutor lemmas and claims -/

theorem crossStep_cases (xmlOrig : List Char) (els : List Elem)
    (normMap : List (Option (Nat × Nat))) (rep : List Char)
    (st : List Char × Nat) (m : Span) :
    crossStep xmlOrig els normMap rep st m = st ∨
    ∃ sb eb pre post,
      crossStep xmlOrig els normMap rep st m =
        (st.1.take (els.getD sb dummyElem).fullStart ++
          ("<Content>".toList ++ escapeForXML (pre ++ rep ++ post) ++ contentCloseTok) ++
          st.1.drop (els.getD eb dummyElem).fullEnd, st.2 + 1) := by
  rw [crossStep]
  rcases h1 : normMap.getD m.start none with _ | ⟨sb, sInner⟩
  · left; rfl
  · rcases h2 : normMap.getD (m.stop - 1) none with _ | ⟨eb, eInnerPred⟩
    · left; rfl
    · simp only
      split
      · left; rfl
      · split
        · left; rfl
        · split
          · left; rfl
          · right
            exact ⟨sb, eb, _, _, rfl⟩

theorem crossLoop_firstOnly_shape (xmlOrig : List Char) (els : List Elem)
    (normMap : List (Option (Nat × Nat))) (rep : List Char) :
    ∀ (spans : List Span),
      0 < (crossLoop xmlOrig els normMap rep true spans (xmlOrig, 0)).2 →
      ∃ sb eb pre post,
        (crossLoop xmlOrig els normMap rep true spans (xmlOrig, 0)).1 =
          xmlOrig.take (els.getD sb dummyElem).fullStart ++
            ("<Content>".toList ++ escapeForXML (pre ++ rep ++ post) ++ contentCloseTok) ++
            xmlOrig.drop (els.getD eb dummyElem).fullEnd := by
  intro spans
  induction spans with
  | nil => intro h; simp [crossLoop] at h
  | cons m rest ih =>
    intro h
    rw [crossLoop] at h ⊢
    rcases crossStep_cases xmlOrig els normMap rep (xmlOrig, 0) m with hc | hc
    · rw [hc] at h ⊢
      rw [if_neg (show ¬((true && decide ((0:Nat) < 0)) = true) by simp)] at h ⊢
      exact ih h
    · obtain ⟨sb, eb, pre, post, hc⟩ := hc
      rw [hc] at h ⊢
      rw [if_pos (show (true && decide ((0:Nat) < 0 + 1)) = true by simp)]
      exact ⟨sb, eb, pre, post, rfl⟩

theorem crossLoop_firstOnly_count (xmlOrig : List Char) (els : List Elem)
    (normMap : List (Option (Nat × Nat))) (rep : List Char) :
    ∀ (spans : List Span) (st : List Char × Nat),
      (crossLoop xmlOrig els normMap rep true spans st).2 ≤ st.2 + 1 := by
  intro spans
  induction spans with
  | nil => intro st; simp [crossLoop]
  | cons m rest ih =>
    intro st
    rw [crossLoop]
    rcases crossStep_cases xmlOrig els normMap rep st m with hc | hc
    · rw [hc]
      rw [if_neg (show ¬((true && decide (st.2 < st.2)) = true) by simp)]
      exact ih st
    · obtain ⟨sb, eb, pre, post, hc⟩ := hc
      rw [hc]
      rw [if_pos (show (true && decide (st.2 < st.2 + 1)) = true by simp)]

theorem cross_firstOnly_count (xml find rep : List Char) (cs ww : Bool) :
    (replaceAcrossContentBlocks xml find rep cs ww true).count ≤ 1 := by
  rw [replaceAcrossContentBlocks]
  split
  · simp
  · split
    · simp
    · exact crossLoop_firstOnly_count xml (crossEls xml) (crossNormMap xml) rep
        (crossMatches xml find cs ww true).reverse (xml, 0)

theorem cross_firstOnly_shape (xml find rep : List Char) (cs ww : Bool)
    (h : 0 < (replaceAcrossContentBlocks xml find rep cs ww true).count) :
    ∃ sb eb pre post,
      (replaceAcrossContentBlocks xml find rep cs ww true).newXml =
        xml.take ((crossEls xml).getD sb dummyElem).fullStart ++
          ("<Content>".toList ++ escapeForXML (pre ++ rep ++ post) ++ contentCloseTok) ++
          xml.drop ((crossEls xml).getD eb dummyElem).fullEnd := by
  rw [replaceAcrossContentBlocks] at h ⊢
  split at h
  · simp at h
  · split at h
    · simp at h
    · rename_i h1 h2
      rw [if_neg h1, if_neg h2]
      exact crossLoop_firstOnly_shape xml (crossEls xml) (crossNormMap xml) rep
        (crossMatches xml find cs ww true).reverse h

/-- C1 (code_bug): at the failing input
`<Content>Hello </Content><Other/><Content>World</Content>` with rule
`Hello World` to `Hi`, the safety-gate regex of
`_replaceAcrossContentBlocks` accepts the raw markup between the first
and last involved `<Content>` elements even though the unrelated
`<Other/>` tag stands between them (the backtracking `[\s\S]*?` of the
gate absorbs the foreign tag), so the substitution collapses the span
across `<Other/>` and returns count 1 with the fragment rewritten to
`<Content>Hi</Content>`, instead of skipping the match with count 0 and
the fragment untouched as the specification requires. -/
theorem c1_gate_bypassed :
    onlyContentsTest
        "<Content>Hello </Content><Other/><Content>World</Content>".toList = true ∧
    replaceAcrossContentBlocks
        "<Content>Hello </Content><Other/><Content>World</Content>".toList
        "Hello World".toList "Hi".toList false false false
      = ⟨"<Content>Hi</Content>".toList, 1⟩ := by
  constructor
  · decide
  · decide

/-- C2 counterexample: the single-block substitutor inserts the
replacement text verbatim; replacing `a` by `&` in the fragment `a`
yields the raw fragment `&`, not the escaped `&amp;`, refuting the claim
that every substitution path escapes the replacement on insert. -/
theorem c2_counterexample :
    (normalizedReplace "a".toList "a".toList "&".toList false false false).newText
      = "&".toList ∧
    escapeForXML "&".toList ≠ "&".toList := by
  constructor
  · decide
  · decide

/-- C2 (corrected): the two substitution paths follow different escaping
disciplines.  The single-block substitutor inserts the replacement text
verbatim, without escaping (first conjunct: replacing the whole fragment
returns the replacement unchanged for every replacement string), while
the cross-block substitutor escapes the rebuilt inner text, replacement
included, when it emits the consolidated `<Content>` element (second
conjunct). -/
theorem c2_escape_discipline :
    (∀ rep : List Char,
      (normalizedReplace "a".toList "a".toList rep false false false).newText = rep) ∧
    (∀ (xml find rep : List Char) (cs ww : Bool),
      0 < (replaceAcrossContentBlocks xml find rep cs ww true).count →
      ∃ sb eb pre post,
        (replaceAcrossContentBlocks xml find rep cs ww true).newXml =
          xml.take ((crossEls xml).getD sb dummyElem).fullStart ++
            ("<Content>".toList ++ escapeForXML (pre ++ rep ++ post) ++ contentCloseTok) ++
            xml.drop ((crossEls xml).getD eb dummyElem).fullEnd) := by
  constructor
  · intro rep
    rw [normalizedReplace]
    rw [show nrMatches "a".toList "a".toList false false false = [⟨0, 1⟩] from by decide]
    rw [if_neg (by decide)]
    rw [show nrResolved "a".toList "a".toList false false false = [(0, 1)] from by decide]
    simp [spliceAt]
  · intro xml find rep cs ww h
    exact cross_firstOnly_shape xml find rep cs ww h

/-- Witness for C2: the verbatim single-block insertion at a concrete
replacement, and the escaped cross-block consolidation at a concrete
two-element fragment with an ampersand in the replacement. -/
theorem c2_escape_discipline_witness :
    (normalizedReplace "a".toList "a".toList "Z".toList false false false).newText
      = "Z".toList ∧
    (∃ sb eb pre post,
      (replaceAcrossContentBlocks
          "<Content>Hello </Content><Content>World</Content>".toList
          "Hello World".toList "A&B".toList false false true).newXml =
        "<Content>Hello </Content><Content>World</Content>".toList.take
            ((crossEls "<Content>Hello </Content><Content>World</Content>".toList).getD
              sb dummyElem).fullStart ++
          ("<Content>".toList ++ escapeForXML (pre ++ "A&B".toList ++ post) ++
            contentCloseTok) ++
          "<Content>Hello </Content><Content>World</Content>".toList.drop
            ((crossEls "<Content>Hello </Content><Content>World</Content>".toList).getD
              eb dummyElem).fullEnd) :=
  ⟨c2_escape_discipline.1 "Z".toList,
    c2_escape_discipline.2 _ _ _ false false (by decide)⟩

/-- C10 (confirmed): every successful first-only cross-block substitution
emits the consolidated element as a literal attribute-free `<Content>`
element (the opening tag is the nine-character literal with no attribute
text), and at a concrete input whose two `<Content>` elements carry
attributes, the attributes are not carried over into the result. -/
theorem c10_consolidated_element :
    (∀ (xml find rep : List Char) (cs ww : Bool),
      0 < (replaceAcrossContentBlocks xml find rep cs ww true).count →
      ∃ sb eb inner,
        (replaceAcrossContentBlocks xml find rep cs ww true).newXml =
          xml.take ((crossEls xml).getD sb dummyElem).fullStart ++
            ("<Content>".toList ++ escapeForXML inner ++ contentCloseTok) ++
            xml.drop ((crossEls xml).getD eb dummyElem).fullEnd) ∧
    replaceAcrossContentBlocks
        "<Content A=1>Hello </Content><Content B=2>World</Content>".toList
        "Hello World".toList "Hi".toList false false false
      = ⟨"<Content>Hi</Content>".toList, 1⟩ := by
  constructor
  · intro xml find rep cs ww h
    obtain ⟨sb, eb, pre, post, hx⟩ := cross_firstOnly_shape xml find rep cs ww h
    exact ⟨sb, eb, pre ++ rep ++ post, hx⟩
  · decide

/-- Witness for C10 at a concrete attributed two-element fragment. -/
theorem c10_consolidated_element_witness :
    ∃ sb eb inner,
      (replaceAcrossContentBlocks
          "<Content A=1>Hello </Content><Content B=2>World</Content>".toList
          "Hello World".toList "Hi".toList false false true).newXml =
        "<Content A=1>Hello </Content><Content B=2>World</Content>".toList.take
            ((crossEls "<Content A=1>Hello </Content><Content B=2>World</Content>".toList).getD
              sb dummyElem).fullStart ++
          ("<Content>".toList ++ escapeForXML inner ++ contentCloseTok) ++
          "<Content A=1>Hello </Content><Content B=2>World</Content>".toList.drop
            ((crossEls "<Content A=1>Hello </Content><Content B=2>World</Content>".toList).getD
              eb dummyElem).fullEnd :=
  c10_consolidated_element.1 _ _ _ false false (by decide)

/-! ### Walker lemmas and claims -/

theorem nr_once_count (t find rep : List Char) (cs ww : Bool) :
    (normalizedReplace t find rep cs ww true).replacementCount ≤ 1 := by
  rw [normalizedReplace]
  split
  · exact Nat.zero_le 1
  · show (nrMatches t find cs ww true).length ≤ 1
    rw [nrMatches]
    rw [findMatches]
    split
    · rw [searchWWAux_firstOnly]
      simp
    · rw [searchAllAux_firstOnly]
      simp

theorem rebuildOnce_count (xml : List Char) (g : List Char → List Char × Nat)
    (hg : ∀ t, (g t).2 ≤ 1) :
    ∀ (els : List Elem) (q : Nat), (rebuildElemsOnce xml g els q).2 ≤ 1 := by
  intro els
  induction els with
  | nil => intro q; simp [rebuildElemsOnce]
  | cons el rest ih =>
    intro q
    rw [rebuildElemsOnce]
    split
    · exact hg _
    · exact ih el.fullEnd

theorem runPassOnce_count (xml openTok closeTok : List Char)
    (g : List Char → List Char × Nat) (hg : ∀ t, (g t).2 ≤ 1) :
    (runPassOnce xml openTok closeTok g).2 ≤ 1 :=
  rebuildOnce_count xml g hg _ 0

theorem performOnce_count (xml find rep : List Char) (cs ww : Bool) :
    (performXMLTextReplacementOnce xml find rep cs ww).count ≤ 1 := by
  rw [performXMLTextReplacementOnce]
  have hg : ∀ t : List Char,
      ((fun t =>
        let r := replaceTextContentOnce t find rep cs ww
        (r.newText, r.replacementCount)) t).2 ≤ 1 := by
    intro t
    exact nr_once_count t find rep cs ww
  split
  · rename_i h
    exact runPassOnce_count _ _ _ _ hg
  · dsimp only
    split
    · rename_i h2
      refine runPassOnce_count _ _ _ _ ?_
      intro t
      exact runPassOnce_count _ _ _ _ hg
    · split
      · exact cross_firstOnly_count _ _ _ _ _
      · exact Nat.zero_le 1

theorem mem_setMod {m : List (String × List Char)} {q : String} {v : List Char}
    {e : String × List Char} (h : e ∈ setMod m q v) : e ∈ m ∨ e = (q, v) := by
  induction m with
  | nil =>
    rw [setMod] at h
    right
    simpa using h
  | cons hd rest ih =>
    rw [setMod] at h
    split at h
    · rcases List.mem_cons.mp h with h | h
      · right; exact h
      · left; exact List.mem_cons_of_mem hd h
    · rcases List.mem_cons.mp h with h | h
      · left; rw [h]; exact List.mem_cons_self hd rest
      · rcases ih h with h2 | h2
        · left; exact List.mem_cons_of_mem hd h2
        · right; exact h2

theorem allStep_preserves {wf : List Char → Bool} {r : Rule} {st : RunState}
    {story : String × List Char}
    (hI : ∀ e ∈ st.modified, wf e.2 = true) :
    ∀ e ∈ (allStep wf r st story).modified, wf e.2 = true := by
  intro e he
  rw [allStep] at he
  split at he
  · split at he
    · rename_i hwf
      simp only at he
      rcases mem_setMod he with h | h
      · exact hI e h
      · rw [h]; exact hwf
    · exact hI e he
  · exact hI e he

theorem processRuleAll_preserves (wf : List Char → Bool) (r : Rule) :
    ∀ (stories : List (String × List Char)) (st : RunState),
      (∀ e ∈ st.modified, wf e.2 = true) →
      ∀ e ∈ (processRuleAll wf r stories st).modified, wf e.2 = true := by
  intro stories
  induction stories with
  | nil => intro st h; exact h
  | cons s rest ih =>
    intro st h
    show ∀ e ∈ (processRuleAll wf r rest (allStep wf r st s)).modified, wf e.2 = true
    exact ih (allStep wf r st s) (allStep_preserves h)

theorem processRuleFirst_preserves (wf : List Char → Bool) (r : Rule) :
    ∀ (stories : List (String × List Char)) (st : RunState),
      (∀ e ∈ st.modified, wf e.2 = true) →
      ∀ e ∈ (processRuleFirst wf r stories st).modified, wf e.2 = true := by
  intro stories
  induction stories with
  | nil => intro st h; exact h
  | cons s rest ih =>
    intro st h e he
    rw [processRuleFirst] at he
    split at he
    · rename_i hcond
      simp only [Bool.and_eq_true, decide_eq_true_eq] at hcond
      simp only at he
      rcases mem_setMod he with h2 | h2
      · exact h e h2
      · rw [h2]; exact hcond.2
    · exact ih st h e he

theorem processReplacements_preserves (wf : List Char → Bool)
    (stories : List (String × List Char)) :
    ∀ (rules : List Rule) (st : RunState),
      (∀ e ∈ st.modified, wf e.2 = true) →
      ∀ e ∈ (rules.foldl (ruleStep wf stories) st).modified, wf e.2 = true := by
  intro rules
  induction rules with
  | nil => intro st h; exact h
  | cons r rest ih =>
    intro st h
    rw [List.foldl_cons]
    refine ih (ruleStep wf stories st r) ?_
    rw [ruleStep]
    split
    · exact h
    · split
      · exact processRuleAll_preserves wf r stories st h
      · exact processRuleFirst_preserves wf r stories st h

/-- C3 counterexample: a rule with an empty find string is not rejected
before the walk and no configuration error is surfaced; the run silently
skips it and proceeds with the remaining rules, so the run with the
invalid rule in front equals the run without it and still applies the
valid rule. -/
theorem c3_counterexample :
    processReplacements (fun _ => true)
        [⟨[], "Y".toList, false, false, true⟩,
          ⟨"X".toList, "Y".toList, false, false, true⟩]
        [("s", "<Content>X</Content>".toList)]
      = processReplacements (fun _ => true)
          [⟨"X".toList, "Y".toList, false, false, true⟩]
          [("s", "<Content>X</Content>".toList)] ∧
    0 < (processReplacements (fun _ => true)
        [⟨[], "Y".toList, false, false, true⟩,
          ⟨"X".toList, "Y".toList, false, false, true⟩]
        [("s", "<Content>X</Content>".toList)]).total := by
  constructor
  · decide
  · decide

/-- C3 (corrected): a rule whose find or replace string is empty is
silently skipped during the walk (the source's `continue`): it produces
no edits, no log entries and no error, and the run continues with the
remaining rules exactly as if the rule were absent. -/
theorem c3_empty_rule_skipped (wf : List Char → Bool) (r : Rule)
    (h : r.find = [] ∨ r.replace = []) (rest : List Rule)
    (stories : List (String × List Char)) :
    processReplacements wf (r :: rest) stories = processReplacements wf rest stories := by
  rw [processReplacements, processReplacements, List.foldl_cons]
  have hstep : ruleStep wf stories ⟨[], 0, []⟩ r = ⟨[], 0, []⟩ := by
    rw [ruleStep, if_pos]
    rcases h with h | h
    · simp [h]
    · simp [h]
  rw [hstep]

/-- Witness for C3 at a concrete invalid rule followed by a valid rule. -/
theorem c3_empty_rule_skipped_witness :
    processReplacements (fun _ => true)
        [⟨[], "Y".toList, false, false, true⟩,
          ⟨"X".toList, "Y".toList, false, false, true⟩]
        [("s", "<Content>X</Content>".toList)]
      = processReplacements (fun _ => true)
          [⟨"X".toList, "Y".toList, false, false, true⟩]
          [("s", "<Content>X</Content>".toList)] :=
  c3_empty_rule_skipped (fun _ => true) ⟨[], "Y".toList, false, false, true⟩
    (Or.inl rfl) [⟨"X".toList, "Y".toList, false, false, true⟩]
    [("s", "<Content>X</Content>".toList)]

/-- C5 (confirmed): an edit whose resulting fragment fails the
well-formedness check `wf` (the `DOMParser` validation, modelled as an
external collaborator) is discarded: every fragment stored in the
modified-files overlay passed `wf` (first conjunct), so the packaging
validation of `createModifiedIDML` never fires for walker output (second
conjunct); in the all-occurrences branch a failing edit leaves the state
untouched and the walk continues (third conjunct), and in the
first-occurrence branch the walk moves on to the next unit as if that
application had found nothing (fourth conjunct).  The diagnostic is a
console log outside the model. -/
theorem c5_validation_discard :
    (∀ (wf : List Char → Bool) (rules : List Rule)
        (stories : List (String × List Char)) (e : String × List Char),
      e ∈ (processReplacements wf rules stories).modified → wf e.2 = true) ∧
    (∀ (wf : List Char → Bool) (rules : List Rule)
        (stories : List (String × List Char)),
      validateModified wf (processReplacements wf rules stories).modified = true) ∧
    (∀ (wf : List Char → Bool) (r : Rule) (st : RunState) (story : String × List Char),
      0 < (performXMLTextReplacement (readStory st.modified story) r.find r.replace
            r.caseSensitive r.wholeWords).count →
      wf (performXMLTextReplacement (readStory st.modified story) r.find r.replace
            r.caseSensitive r.wholeWords).newXml = false →
      allStep wf r st story = st) ∧
    (∀ (wf : List Char → Bool) (r : Rule) (story : String × List Char)
        (rest : List (String × List Char)) (st : RunState),
      0 < (performXMLTextReplacementOnce (readStory st.modified story) r.find r.replace
            r.caseSensitive r.wholeWords).count →
      wf (performXMLTextReplacementOnce (readStory st.modified story) r.find r.replace
            r.caseSensitive r.wholeWords).newXml = false →
      processRuleFirst wf r (story :: rest) st = processRuleFirst wf r rest st) := by
  refine ⟨?_, ?_, ?_, ?_⟩
  · intro wf rules stories e he
    exact processReplacements_preserves wf stories rules ⟨[], 0, []⟩ (by simp) e he
  · intro wf rules stories
    rw [validateModified, List.all_eq_true]
    intro e he
    exact processReplacements_preserves wf stories rules ⟨[], 0, []⟩ (by simp) e he
  · intro wf r st story hc hwf
    rw [allStep, if_pos hc, if_neg (by simp [hwf])]
  · intro wf r story rest st hc hwf
    rw [processRuleFirst, if_neg (by simp [hwf])]

/-- Witness for C5: a run whose only stored fragment passed validation,
and a rejecting validator at a concrete unit whose edit is discarded in
both branches. -/
theorem c5_validation_discard_witness :
    (("s", "<Content>Y</Content>".toList)
        ∈ (processReplacements (fun _ => true)
            [⟨"X".toList, "Y".toList, false, false, true⟩]
            [("s", "<Content>X</Content>".toList)]).modified →
      (fun _ => true) "<Content>Y</Content>".toList = true) ∧
    allStep (fun _ => false) ⟨"X".toList, "Y".toList, false, false, true⟩ ⟨[], 0, []⟩
        ("s", "<Content>X</Content>".toList) = ⟨[], 0, []⟩ ∧
    processRuleFirst (fun _ => false) ⟨"X".toList, "Y".toList, false, false, false⟩
        [("s", "<Content>X</Content>".toList)] ⟨[], 0, []⟩
      = processRuleFirst (fun _ => false) ⟨"X".toList, "Y".toList, false, false, false⟩
          [] ⟨[], 0, []⟩ :=
  ⟨fun h => c5_validation_discard.1 (fun _ => true)
      [⟨"X".toList, "Y".toList, false, false, true⟩]
      [("s", "<Content>X</Content>".toList)] _ h,
    c5_validation_discard.2.2.1 (fun _ => false)
      ⟨"X".toList, "Y".toList, false, false, true⟩ ⟨[], 0, []⟩
      ("s", "<Content>X</Content>".toList) (by decide) rfl,
    c5_validation_discard.2.2.2 (fun _ => false)
      ⟨"X".toList, "Y".toList, false, false, false⟩
      ("s", "<Content>X</Content>".toList) [] ⟨[], 0, []⟩ (by decide) rfl⟩

theorem processRuleFirst_total_le (wf : List Char → Bool) (r : Rule) :
    ∀ (stories : List (String × List Char)) (st : RunState),
      (processRuleFirst wf r stories st).total ≤ st.total + 1 := by
  intro stories
  induction stories with
  | nil => intro st; simp [processRuleFirst]
  | cons s rest ih =>
    intro st
    rw [processRuleFirst]
    split
    · simp only
      have := performOnce_count (readStory st.modified s) r.find r.replace
        r.caseSensitive r.wholeWords
      omega
    · exact ih st

/-- C8 (confirmed): the first-occurrence replacement applies at most one
occurrence (first conjunct); when a unit's application succeeds and
validates, the walk for that rule updates the state with that unit and
stops, leaving all later units unvisited (second conjunct); the total a
rule adds in first-occurrence mode is at most one (third conjunct); and
with two units that both contain the find text, exactly the first unit is
edited, the total is 1 and exactly one change record with count 1 is
produced (fourth conjunct). -/
theorem c8_first_occurrence :
    (∀ (xml find rep : List Char) (cs ww : Bool),
      (performXMLTextReplacementOnce xml find rep cs ww).count ≤ 1) ∧
    (∀ (wf : List Char → Bool) (r : Rule) (story : String × List Char)
        (rest : List (String × List Char)) (st : RunState),
      0 < (performXMLTextReplacementOnce (readStory st.modified story) r.find r.replace
            r.caseSensitive r.wholeWords).count →
      wf (performXMLTextReplacementOnce (readStory st.modified story) r.find r.replace
            r.caseSensitive r.wholeWords).newXml = true →
      processRuleFirst wf r (story :: rest) st =
        ⟨setMod st.modified story.1
            (performXMLTextReplacementOnce (readStory st.modified story) r.find r.replace
              r.caseSensitive r.wholeWords).newXml,
          st.total + (performXMLTextReplacementOnce (readStory st.modified story) r.find
            r.replace r.caseSensitive r.wholeWords).count,
          st.log ++ [⟨story.1, r.find, r.replace,
            (performXMLTextReplacementOnce (readStory st.modified story) r.find r.replace
              r.caseSensitive r.wholeWords).count⟩]⟩) ∧
    (∀ (wf : List Char → Bool) (r : Rule) (stories : List (String × List Char))
        (st : RunState),
      (processRuleFirst wf r stories st).total ≤ st.total + 1) ∧
    (processReplacements (fun _ => true)
        [⟨"X".toList, "Y".toList, false, false, false⟩]
        [("s1", "<Content>X</Content>".toList), ("s2", "<Content>X</Content>".toList)]
      = ⟨[("s1", "<Content>Y</Content>".toList)], 1,
          [⟨"s1", "X".toList, "Y".toList, 1⟩]⟩) := by
  refine ⟨?_, ?_, ?_, ?_⟩
  · intro xml find rep cs ww
    exact performOnce_count xml find rep cs ww
  · intro wf r story rest st hc hwf
    rw [processRuleFirst, if_pos (by simp [hc, hwf])]
  · exact processRuleFirst_total_le
  · decide

/-- Witness for C8: at two concrete units both containing the find text,
the first-occurrence walk edits the first unit and stops. -/
theorem c8_first_occurrence_witness :
    processRuleFirst (fun _ => true) ⟨"X".toList, "Y".toList, false, false, false⟩
        [("s1", "<Content>X</Content>".toList), ("s2", "<Content>X</Content>".toList)]
        ⟨[], 0, []⟩
      = ⟨setMod [] "s1"
            (performXMLTextReplacementOnce
              (readStory [] ("s1", "<Content>X</Content>".toList)) "X".toList "Y".toList
              false false).newXml,
          0 + (performXMLTextReplacementOnce
            (readStory [] ("s1", "<Content>X</Content>".toList)) "X".toList "Y".toList
            false false).count,
          [] ++ [⟨"s1", "X".toList, "Y".toList,
            (performXMLTextReplacementOnce
              (readStory [] ("s1", "<Content>X</Content>".toList)) "X".toList "Y".toList
              false false).count⟩]⟩ :=
  c8_first_occurrence.2.1 (fun _ => true) ⟨"X".toList, "Y".toList, false, false, false⟩
    ("s1", "<Content>X</Content>".toList) [("s2", "<Content>X</Content>".toList)]
    ⟨[], 0, []⟩ (by decide) rfl

theorem lookupMod_setMod : ∀ (m : List (String × List Char)) (p : String) (v : List Char),
    lookupMod (setMod m p v) p = some v := by
  intro m
  induction m with
  | nil => intro p v; simp [setMod, lookupMod]
  | cons e rest ih =>
    intro p v
    rw [setMod]
    split
    · simp [lookupMod]
    · rename_i hne
      rw [lookupMod, List.find?_cons_of_neg]
      · exact ih p v
      · simpa using fun h => hne h

/-- C9 (confirmed): once a rule has edited a unit, later rules read the
unit's latest edited content from the modified-files overlay rather than
the original (first conjunct); in particular the rule set `A→B`, `B→C` in
all-occurrences mode applied to a unit `<Content>A</Content>` produces
`<Content>C</Content>` with total count 2 and both change records, which
is only possible because the second rule saw the first rule's edit
(second conjunct). -/
theorem c9_cumulative_edits :
    (∀ (m : List (String × List Char)) (p : String) (v orig : List Char),
      readStory (setMod m p v) (p, orig) = v) ∧
    (processReplacements (fun _ => true)
        [⟨"A".toList, "B".toList, false, false, true⟩,
          ⟨"B".toList, "C".toList, false, false, true⟩]
        [("s", "<Content>A</Content>".toList)]
      = ⟨[("s", "<Content>C</Content>".toList)], 2,
          [⟨"s", "A".toList, "B".toList, 1⟩, ⟨"s", "B".toList, "C".toList, 1⟩]⟩) := by
  constructor
  · intro m p v orig
    rw [readStory, lookupMod_setMod]
    rfl
  · decide

theorem findMatches_pairwise_start (s pat : List Char) (ww fo : Bool) :
    List.Pairwise (fun a b => a.start < b.start) (findMatches s pat ww fo) := by
  rw [findMatches]
  split
  · exact searchWWAux_pairwise
  · refine List.Pairwise.imp_of_mem ?_ searchAllAux_pairwise
    intro a b ha hb hab
    have := (searchAllAux_mem ha).2.2.2
    omega

theorem nr_foldr (t find rep : List Char) (cs ww fo : Bool) :
    (normalizedReplace t find rep cs ww fo).newText
      = List.foldr (fun p acc => spliceAt acc rep p.1 p.2) t (nrResolved t find cs ww fo) := by
  rw [normalizedReplace]
  split
  · rename_i hE
    rw [show nrResolved t find cs ww fo
        = (nrMatches t find cs ww fo).map
            (resolveSpan (normMapOf t) (unescMap t) (unescape t).length t.length) from rfl]
    rw [List.isEmpty_iff.mp hE]
    rfl
  · rfl

theorem crossLoop_all_foldl (xmlOrig : List Char) (els : List Elem)
    (normMap : List (Option (Nat × Nat))) (rep : List Char) :
    ∀ (spans : List Span) (st : List Char × Nat),
      crossLoop xmlOrig els normMap rep false spans st
        = List.foldl (crossStep xmlOrig els normMap rep) st spans := by
  intro spans
  induction spans with
  | nil => intro st; rfl
  | cons m rest ih =>
    intro st
    rw [crossLoop, List.foldl_cons]
    rw [if_neg (by simp)]
    exact ih _

/-- C7 counterexample: in whole-word mode on fragment `a a a` with query
`a a`, the matcher returns the overlapping spans `[0,3)` and `[2,5)`; the
resolved spans are not sorted-and-non-overlapping, and the descending
application yields `X`, which differs from the simultaneous splice `XX`
in which every earlier match's resolved source offsets still address the
original text — so the resolved source offsets of the earlier match are
no longer valid when its splice is performed, refuting the claim as
stated. -/
theorem c7_counterexample :
    nrResolved "a a a".toList "a a".toList false true false = [(0, 3), (2, 5)] ∧
    sortedSpansB 0 "a a a".toList.length
      (nrResolved "a a a".toList "a a".toList false true false) = false ∧
    (normalizedReplace "a a a".toList "a a".toList "X".toList false true false).newText
      ≠ simulSplice "a a a".toList "X".toList
          (nrResolved "a a a".toList "a a".toList false true false) := by
  refine ⟨by decide, by decide, by decide⟩

/-- C7 (corrected): both substitution paths apply the replacements from
the last found match to the first.  The single-block substitutor's output
is the right fold of single splices over its resolved spans in every mode
(first conjunct); the cross-block all-occurrences loop is the left fold
of `crossStep` over the spans it is given (second conjunct) and the
cross-block substitutor feeds it the reversed match list (third
conjunct); match starts are strictly increasing in every mode (fourth and
fifth conjuncts), so both folds run in descending start order.  When the
spans do not overlap — always the case without whole words — the
descending application preserves the resolved source offsets of every
earlier match: it coincides with the simultaneous splice over the sorted,
non-overlapping resolved spans (sixth and seventh conjuncts).  With whole
words, overlapping spans are possible and the earlier offsets can be
stale, as the counterexample shows. -/
theorem c7_descending_order :
    (∀ (t find rep : List Char) (cs ww fo : Bool),
      (normalizedReplace t find rep cs ww fo).newText
        = List.foldr (fun p acc => spliceAt acc rep p.1 p.2) t
            (nrResolved t find cs ww fo)) ∧
    (∀ (xmlOrig : List Char) (els : List Elem) (normMap : List (Option (Nat × Nat)))
        (rep : List Char) (spans : List Span) (st : List Char × Nat),
      crossLoop xmlOrig els normMap rep false spans st
        = List.foldl (crossStep xmlOrig els normMap rep) st spans) ∧
    (∀ (xml find rep : List Char) (cs ww : Bool),
      (crossEls xml).isEmpty = false →
      (crossMatches xml find cs ww false).isEmpty = false →
      replaceAcrossContentBlocks xml find rep cs ww false
        = ⟨(List.foldl (crossStep xml (crossEls xml) (crossNormMap xml) rep) (xml, 0)
              (crossMatches xml find cs ww false).reverse).1,
            (List.foldl (crossStep xml (crossEls xml) (crossNormMap xml) rep) (xml, 0)
              (crossMatches xml find cs ww false).reverse).2⟩) ∧
    (∀ (t find : List Char) (cs ww fo : Bool),
      List.Pairwise (fun a b => a.start < b.start) (nrMatches t find cs ww fo)) ∧
    (∀ (xml find : List Char) (cs ww fo : Bool),
      List.Pairwise (fun a b => a.start < b.start) (crossMatches xml find cs ww fo)) ∧
    (∀ (t find rep : List Char) (cs fo : Bool),
      (normalizedReplace t find rep cs false fo).newText
        = simulSplice t rep (nrResolved t find cs false fo)) ∧
    (∀ (t find : List Char) (cs fo : Bool),
      sortedSpansB 0 t.length (nrResolved t find cs false fo) = true) := by
  refine ⟨?_, ?_, ?_, ?_, ?_, ?_, ?_⟩
  · exact nr_foldr
  · exact crossLoop_all_foldl
  · intro xml find rep cs ww h1 h2
    rw [replaceAcrossContentBlocks, if_neg (by simp [h1]), if_neg (by simp [h2])]
    dsimp only
    rw [crossLoop_all_foldl]
  · intro t find cs ww fo
    exact findMatches_pairwise_start _ _ ww fo
  · intro xml find cs ww fo
    exact findMatches_pairwise_start _ _ ww fo
  · intro t find rep cs fo
    exact normalizedReplace_simul t find rep cs fo
  · intro t find cs fo
    exact resolved_sorted t find cs fo

/-- Witness for C7 at a concrete two-element fragment whose cross-block
match list is non-empty. -/
theorem c7_descending_order_witness :
    replaceAcrossContentBlocks "<Content>Hello </Content><Content>World</Content>".toList
        "Hello World".toList "Hi".toList false false false
      = ⟨(List.foldl
            (crossStep "<Content>Hello </Content><Content>World</Content>".toList
              (crossEls "<Content>Hello </Content><Content>World</Content>".toList)
              (crossNormMap "<Content>Hello </Content><Content>World</Content>".toList)
              "Hi".toList)
            ("<Content>Hello </Content><Content>World</Content>".toList, 0)
            (crossMatches "<Content>Hello </Content><Content>World</Content>".toList
              "Hello World".toList false false false).reverse).1,
          (List.foldl
            (crossStep "<Content>Hello </Content><Content>World</Content>".toList
              (crossEls "<Content>Hello </Content><Content>World</Content>".toList)
              (crossNormMap "<Content>Hello </Content><Content>World</Content>".toList)
              "Hi".toList)
            ("<Content>Hello </Content><Content>World</Content>".toList, 0)
            (crossMatches "<Content>Hello </Content><Content>World</Content>".toList
              "Hello World".toList false false false).reverse).2⟩ :=
  c7_descending_order.2.2.1 "<Content>Hello </Content><Content>World</Content>".toList
    "Hello World".toList "Hi".toList false false (by decide) (by decide)

end Idml
